import Mathlib

/-!
Digest::MurmurHash (ext/digest/murmurhash/murmurhash.c).

A shallow embedding of the C extension and theorems about it.

Modelling conventions

* A byte of memory is a `Fin 256`.  `uint32_t` values are naturals reduced
  modulo `2^32` after every operation that can overflow; `size_t` values are
  naturals reduced modulo `2^64`.
* The heap block `ptr->buffer` is the list of its bytes; the pointer `ptr->p`
  is kept as the offset `p - buffer`.
* The `uint32_t` load `*(uint32_t*)p` is the load of a little-endian target.
* Whether plain `char` is signed is implementation-defined in C, so the
  functions that read a `char` take the flag `signedChar`.
* `xmalloc` and `xrealloc` are assumed to succeed; the bytes they leave
  indeterminate are taken from the parameter `heap`.
-/

namespace MurmurHash

/-- One byte of memory. -/
abbrev Byte := Fin 256

def MURMURHASH_DIGEST_LENGTH : Nat := 4
def MURMURHASH_BLOCK_LENGTH : Nat := 4
def MURMURHASH_BUFFER_INIT : Nat := 64
def MURMURHASH_MAGIC : Nat := 0x5bd1e995

/-- Modulus of `uint32_t` arithmetic, `2^32`. -/
def UINT32_MOD : Nat := 4294967296

/-- Modulus of `size_t` arithmetic, `2^64`. -/
def SIZE_MOD : Nat := 18446744073709551616

/-- The C struct `murmur_t`: `buffer` is the content of the heap block,
`p` the offset of the write pointer from `buffer`, `memsize` the recorded
capacity. -/
structure murmur_t where
  buffer : List Byte
  p : Nat
  memsize : Nat
deriving DecidableEq

/-- The function `murmur_buffer_length`: `ptr->p - ptr->buffer`. -/
def murmur_buffer_length (ptr : murmur_t) : Nat :=
  ptr.p

/-- The bytes the accumulator logically holds: the block from `buffer` up to `p`. -/
def contents (ptr : murmur_t) : List Byte :=
  ptr.buffer.take (murmur_buffer_length ptr)

/-! ## The hash engine -/

/-- The byte at `p[i]` read as an unsigned 8-bit value; a pointer is the list of
the bytes from its address to the end of the block. -/
def load_u8 (p : List Byte) (i : Nat) : Nat :=
  (p.getD i 0).val

/-- The load `*(uint32_t*)p` on a little-endian target. -/
def load_u32 (p : List Byte) : Nat :=
  load_u8 p 0 + 256 * load_u8 p 1 + 65536 * load_u8 p 2 + 16777216 * load_u8 p 3

/-- The expression `p[i]` for `const char* p`, promoted to `int`: a value in
`-128..127` where plain `char` is signed, in `0..255` where it is unsigned. -/
def load_char (signedChar : Bool) (p : List Byte) (i : Nat) : Int :=
  if signedChar && decide (128 ≤ load_u8 p i) then (load_u8 p i : Int) - 256
  else (load_u8 p i : Int)

/-- The statement `h += x` for `uint32_t h` and `int x`: `x` is converted to
`uint32_t` and the sum wraps modulo `2^32`. -/
def u32_add_int (h : Nat) (x : Int) : Nat :=
  (((h : Int) + x) % (UINT32_MOD : Int)).toNat

/-- The loop `while (4 <= length) { ... }` of `murmur_hash_process`, on the
variables `h`, `p` and `length`; the first argument bounds the number of
iterations. -/
def word_loop : Nat → Nat → List Byte → Nat → Nat × List Byte × Nat
  | 0, h, p, length => (h, p, length)
  | fuel + 1, h, p, length =>
    if 4 ≤ length then
      let h := (h + load_u32 p) % UINT32_MOD
      let h := (h * MURMURHASH_MAGIC) % UINT32_MOD
      let h := h ^^^ (h >>> 16)
      word_loop fuel h (p.drop 4) (length - 4)
    else (h, p, length)

/-- The statements under `case 1:` of the `switch`. -/
def tail_case_1 (signedChar : Bool) (p : List Byte) (h : Nat) : Nat :=
  let h := u32_add_int h (load_char signedChar p 0)
  let h := (h * MURMURHASH_MAGIC) % UINT32_MOD
  h ^^^ (h >>> 16)

/-- The statements from `case 2:` on (falling through to `case 1:`). -/
def tail_case_2 (signedChar : Bool) (p : List Byte) (h : Nat) : Nat :=
  tail_case_1 signedChar p (u32_add_int h (load_char signedChar p 1 * 256))

/-- The statements from `case 3:` on (falling through to `case 2:`). -/
def tail_case_3 (signedChar : Bool) (p : List Byte) (h : Nat) : Nat :=
  tail_case_2 signedChar p (u32_add_int h (load_char signedChar p 2 * 65536))

/-- The `switch (length)` of `murmur_hash_process`. -/
def tail_switch (signedChar : Bool) (p : List Byte) (length : Nat) (h : Nat) : Nat :=
  match length with
  | 3 => tail_case_3 signedChar p h
  | 2 => tail_case_2 signedChar p h
  | 1 => tail_case_1 signedChar p h
  | _ => h

/-- The four closing statements of `murmur_hash_process`. -/
def final_mix (h : Nat) : Nat :=
  let h := (h * MURMURHASH_MAGIC) % UINT32_MOD
  let h := h ^^^ (h >>> 10)
  let h := (h * MURMURHASH_MAGIC) % UINT32_MOD
  h ^^^ (h >>> 17)

/-- The function `murmur_hash_process`.  `length` is a `uint32_t`, so the
`size_t` buffer length is truncated modulo `2^32` on assignment. -/
def murmur_hash_process (signedChar : Bool) (ptr : murmur_t) : Nat :=
  let p := ptr.buffer
  let length := murmur_buffer_length ptr % UINT32_MOD
  let h := (length * MURMURHASH_MAGIC) % UINT32_MOD
  let s := word_loop length h p length
  final_mix (tail_switch signedChar s.2.1 s.2.2 s.1)

/-! ## Memory -/

/-- The call `xmalloc(size)`: a fresh block of `size` bytes of indeterminate content. -/
def xmalloc (heap : Nat → Byte) (size : Nat) : List Byte :=
  (List.range size).map heap

/-- The call `xrealloc(block, size)`: a block of `size` bytes that keeps the old
content up to the smaller of the two sizes; the bytes beyond are indeterminate. -/
def xrealloc (heap : Nat → Byte) (block : List Byte) (size : Nat) : List Byte :=
  (block ++ (List.range (size - block.length)).map (fun i => heap (block.length + i))).take size

/-- The call `memcpy(dst + off, src, n)`, as the new content of the block `dst`.
C defines it for `off + n` within `dst` and `n` within `src`. -/
def memcpy (dst : List Byte) (off : Nat) (src : List Byte) (n : Nat) : List Byte :=
  dst.take off ++ src.take n ++ dst.drop (off + n)

/-! ## The accumulator struct -/

/-- The function `murmur_init`. -/
def murmur_init (heap : Nat → Byte) : murmur_t :=
  { buffer := xmalloc heap MURMURHASH_BUFFER_INIT
    p := 0
    memsize := MURMURHASH_BUFFER_INIT }

/-- The function `murmur_realloc`.  `xrealloc` raises by itself when it cannot
allocate, so the `NULL` test after it never fires. -/
def murmur_realloc (heap : Nat → Byte) (ptr : murmur_t) (size : Nat) : murmur_t :=
  { ptr with buffer := xrealloc heap ptr.buffer size }

/-- Number of iterations after which the doubling loop of `murmur_update` can no
longer change: 64 doublings turn every `size_t` into 0. -/
def GROW_FUEL : Nat := 65

/-- The loop `while (newsize < require) newsize *= 2;` on `size_t`; `none` when
the bound on the iterations is used up before the loop exits. -/
def grow_loop : Nat → Nat → Nat → Option Nat
  | 0, _, _ => none
  | fuel + 1, newsize, require =>
    if newsize < require then grow_loop fuel ((newsize * 2) % SIZE_MOD) require
    else some newsize

/-- The body of `murmur_update` on the struct behind `self`; `none` when the
doubling loop does not exit. -/
def murmur_update_ptr (heap : Nat → Byte) (ptr : murmur_t) (str : List Byte) : Option murmur_t :=
  let str_len := str.length
  let buffer_len := murmur_buffer_length ptr
  let require := (buffer_len + str_len) % SIZE_MOD
  if ptr.memsize < require then
    match grow_loop GROW_FUEL ptr.memsize require with
    | none => none
    | some newsize =>
      let ptr := murmur_realloc heap ptr newsize
      let ptr := { ptr with p := buffer_len }
      let ptr := { ptr with memsize := newsize }
      let ptr := { ptr with buffer := memcpy ptr.buffer ptr.p str str_len }
      some { ptr with p := ptr.p + str_len }
  else
    let ptr := { ptr with buffer := memcpy ptr.buffer ptr.p str str_len }
    some { ptr with p := ptr.p + str_len }

/-- The body of `murmur_initialize_copy` on the two structs, after the identity
and frozen checks. -/
def murmur_initialize_copy_ptr (heap : Nat → Byte) (ptr_copy ptr_origin : murmur_t) : murmur_t :=
  let buffer_len := murmur_buffer_length ptr_origin
  let ptr_copy :=
    if ptr_copy.memsize < ptr_origin.memsize then
      { murmur_realloc heap ptr_copy ptr_origin.memsize with memsize := ptr_origin.memsize }
    else ptr_copy
  let ptr_copy := { ptr_copy with buffer := memcpy ptr_copy.buffer 0 ptr_origin.buffer buffer_len }
  { ptr_copy with p := buffer_len }

/-- The assignments `digest[i] = ...` of `murmur_finish`: a `uint32_t` stored in
a `uint8_t` keeps its low 8 bits. -/
def to_u8 (x : Nat) : Byte :=
  ⟨x % 256, Nat.mod_lt x (by decide)⟩

/-- The four digest bytes `murmur_finish` builds from `h`. -/
def digest_bytes (h : Nat) : List Byte :=
  [to_u8 (h >>> 24), to_u8 (h >>> 16), to_u8 (h >>> 8), to_u8 h]

/-! ## Ruby objects -/

/-- A Ruby object reference; it denotes the object at that index of the object space. -/
abbrev VALUE := Nat

/-- A `T_DATA` object made by `murmur_alloc`: its frozen flag and the struct its
data pointer owns.  `murmur_alloc` never stores a `NULL` data pointer. -/
structure RData where
  frozen : Bool
  data : murmur_t
deriving DecidableEq

/-- All live `Digest::MurmurHash` objects. -/
abbrev ObjectSpace := List RData

/-- The Ruby exceptions the extension can raise. -/
inductive RubyError where
  | ArgumentError
  | TypeError
  | FrozenError
deriving DecidableEq

/-- How a call of an extension function ends: it returns `val` and leaves the
object space `space`, it raises `e` and leaves `space`, or it never returns. -/
inductive Outcome (α : Type) where
  | ok (space : ObjectSpace) (val : α)
  | raised (e : RubyError) (space : ObjectSpace)
  | hangs
deriving DecidableEq

/-- Run `f` on the result of a call that returned; pass a raise or a hang on. -/
def Outcome.andThen {α β : Type} (o : Outcome α) (f : ObjectSpace → α → Outcome β) : Outcome β :=
  match o with
  | .ok space val => f space val
  | .raised e space => .raised e space
  | .hangs => .hangs

/-- The function `murmur_alloc`: a new unfrozen object around a struct set up by
`murmur_init`. -/
def murmur_alloc (heap : Nat → Byte) (space : ObjectSpace) : ObjectSpace × VALUE :=
  (space ++ [{ frozen := false, data := murmur_init heap }], space.length)

/-- The function `murmur_initialize_copy`: the identity test, `rb_check_frozen(copy)`,
then the two `Data_Get_Struct` and the copy.  A reference that is no data object
makes `Data_Get_Struct` raise `TypeError`. -/
def murmur_initialize_copy (heap : Nat → Byte) (space : ObjectSpace) (copy origin : VALUE) :
    Outcome VALUE :=
  if copy = origin then .ok space copy
  else
    match space[copy]? with
    | none => .raised .TypeError space
    | some c =>
      if c.frozen then .raised .FrozenError space
      else
        match space[origin]? with
        | none => .raised .TypeError space
        | some o =>
          .ok (space.set copy { c with data := murmur_initialize_copy_ptr heap c.data o.data })
            copy

/-- The function `murmur_reset`. -/
def murmur_reset (space : ObjectSpace) (self : VALUE) : Outcome VALUE :=
  match space[self]? with
  | none => .raised .TypeError space
  | some obj => .ok (space.set self { obj with data := { obj.data with p := 0 } }) self

/-- The function `murmur_update`; `str` is the byte content of the string argument. -/
def murmur_update (heap : Nat → Byte) (space : ObjectSpace) (self : VALUE) (str : List Byte) :
    Outcome VALUE :=
  match space[self]? with
  | none => .raised .TypeError space
  | some obj =>
    match murmur_update_ptr heap obj.data str with
    | none => .hangs
    | some ptr => .ok (space.set self { obj with data := ptr }) self

/-- The function `murmur_finish`; the value is the content of the new 4-byte string. -/
def murmur_finish (signedChar : Bool) (space : ObjectSpace) (self : VALUE) :
    Outcome (List Byte) :=
  match space[self]? with
  | none => .raised .TypeError space
  | some obj => .ok space (digest_bytes (murmur_hash_process signedChar obj.data))

/-- The function `murmur_digest_length`. -/
def murmur_digest_length (space : ObjectSpace) (_self : VALUE) : Outcome Nat :=
  .ok space MURMURHASH_DIGEST_LENGTH

/-- The function `murmur_block_length`. -/
def murmur_block_length (space : ObjectSpace) (_self : VALUE) : Outcome Nat :=
  .ok space MURMURHASH_BLOCK_LENGTH

/-- The function `murmur_to_i`; the value is the Ruby integer `UINT2NUM` builds. -/
def murmur_to_i (signedChar : Bool) (space : ObjectSpace) (self : VALUE) : Outcome Nat :=
  match space[self]? with
  | none => .raised .TypeError space
  | some obj => .ok space (murmur_hash_process signedChar obj.data)

/-- The function `murmur_s_rawdigest`; `argv` holds the byte contents of the string
arguments and `argc` is its length. -/
def murmur_s_rawdigest (signedChar : Bool) (heap : Nat → Byte) (space : ObjectSpace)
    (argv : List (List Byte)) : Outcome Nat :=
  match argv with
  | [] => .raised .ArgumentError space
  | str :: _ =>
    let a := murmur_alloc heap space
    (murmur_update heap a.1 a.2 str).andThen (fun space1 _ => murmur_to_i signedChar space1 a.2)

/-! ## Call sequences and state predicates -/

/-- The calls `murmur_update(self, s)` for the strings `s` of a list, in order. -/
def update_all (heap : Nat → Byte) (space : ObjectSpace) (self : VALUE) :
    List (List Byte) → Outcome VALUE
  | [] => .ok space self
  | str :: rest =>
    (murmur_update heap space self str).andThen (fun space1 _ => update_all heap space1 self rest)

/-- A struct as the extension builds them: `p` lies within the block, the block
has the recorded capacity, and the capacity is not zero. -/
def Valid (ptr : murmur_t) : Prop :=
  ptr.p ≤ ptr.memsize ∧ ptr.buffer.length = ptr.memsize ∧ 0 < ptr.memsize

instance (ptr : murmur_t) : Decidable (Valid ptr) := by
  unfold Valid; infer_instance

/-- A struct as it is after `murmur_init` and `murmur_update` with the bytes `bs`
(at most 64 of them) on a zero-filled heap. -/
def small_acc (bs : List Byte) : murmur_t :=
  { buffer := bs ++ List.replicate (64 - bs.length) 0, p := bs.length, memsize := 64 }

/-- The value an `Outcome` returned, if the call returned. -/
def Outcome.val? {α : Type} (o : Outcome α) : Option α :=
  match o with
  | .ok _ val => some val
  | _ => none

/-- The object space an `Outcome` leaves, if the call ended. -/
def Outcome.space? {α : Type} (o : Outcome α) : Option ObjectSpace :=
  match o with
  | .ok space _ => some space
  | .raised _ space => some space
  | .hangs => none

/-- Four bytes decoded as a big-endian unsigned integer. -/
def decode_be (d : List Byte) : Nat :=
  d.foldl (fun acc b => acc * 256 + b.val) 0

/-- The accumulator invariant: the logical length is at most the capacity, and the
capacity is `64 * 2^j` for some `j`. -/
def Inv (ptr : murmur_t) : Prop :=
  murmur_buffer_length ptr ≤ ptr.memsize ∧ ∃ j, ptr.memsize = MURMURHASH_BUFFER_INIT * 2 ^ j

/-- Every object of the object space satisfies the accumulator invariant. -/
def SpaceInv (space : ObjectSpace) : Prop :=
  ∀ obj, obj ∈ space → Inv obj.data

/-! ## The documented algorithm (spec §4.2), written from its text -/

/-- Step 2: `h = len * m`, 32-bit unsigned, wrapping. -/
def spec_seed (len : Nat) : Nat :=
  (len * 0x5bd1e995) % 2 ^ 32

/-- Four bytes read as an unsigned 32-bit little-endian integer. -/
def spec_le32 (b0 b1 b2 b3 : Byte) : Nat :=
  b0.val + b1.val * 2 ^ 8 + b2.val * 2 ^ 16 + b3.val * 2 ^ 24

/-- Step 3, one word: `h = (h + k) * m; h ^= h >> r`. -/
def spec_word_round (h k : Nat) : Nat :=
  let h := ((h + k) * 0x5bd1e995) % 2 ^ 32
  h ^^^ (h >>> 16)

/-- Step 3: consume 4-byte words while at least 4 bytes remain; the result is
`h` and the 0 to 3 bytes left over. -/
def spec_words : Nat → List Byte → Nat × List Byte
  | h, b0 :: b1 :: b2 :: b3 :: rest => spec_words (spec_word_round h (spec_le32 b0 b1 b2 b3)) rest
  | h, tail => (h, tail)

/-- Step 4: the tail bytes, as unsigned 8-bit values, added to `h`, then one
more round if there was a tail. -/
def spec_tail (h : Nat) (tail : List Byte) : Nat :=
  let h := if tail.length = 3 then (h + (tail.getD 2 0).val * 2 ^ 16) % 2 ^ 32 else h
  let h := if 2 ≤ tail.length then (h + (tail.getD 1 0).val * 2 ^ 8) % 2 ^ 32 else h
  if 1 ≤ tail.length then
    let h := (h + (tail.getD 0 0).val) % 2 ^ 32
    let h := (h * 0x5bd1e995) % 2 ^ 32
    h ^^^ (h >>> 16)
  else h

/-- Step 5: `h *= m; h ^= h >> 10; h *= m; h ^= h >> 17`. -/
def spec_avalanche (h : Nat) : Nat :=
  let h := (h * 0x5bd1e995) % 2 ^ 32
  let h := h ^^^ (h >>> 10)
  let h := (h * 0x5bd1e995) % 2 ^ 32
  h ^^^ (h >>> 17)

/-- The function `mix` of the spec. -/
def spec_mix (bytes : List Byte) : Nat :=
  let s := spec_words (spec_seed bytes.length) bytes
  spec_avalanche (spec_tail s.1 s.2)

/-! ## Lemmas on the hash engine -/

theorem spec_words_short (h : Nat) (l : List Byte) (hl : l.length < 4) :
    spec_words h l = (h, l) := by
  match l with
  | [] => rfl
  | [_] => rfl
  | [_, _] => rfl
  | [_, _, _] => rfl
  | _ :: _ :: _ :: _ :: _ => simp at hl; omega

theorem load_u32_cons (b0 b1 b2 b3 : Byte) (q : List Byte) :
    load_u32 (b0 :: b1 :: b2 :: b3 :: q) = spec_le32 b0 b1 b2 b3 := by
  simp [load_u32, load_u8, spec_le32]
  omega

theorem word_round_eq (h k : Nat) :
    ((h + k) % UINT32_MOD * MURMURHASH_MAGIC) % UINT32_MOD
      = ((h + k) * 0x5bd1e995) % 2 ^ 32 := by
  simp [UINT32_MOD, MURMURHASH_MAGIC, Nat.mod_mul_mod]

/-- The word loop, given enough iterations, computes the documented word rounds
over the first `length` bytes and stops with the pointer on the tail. -/
theorem word_loop_eq (fuel : Nat) : ∀ (h : Nat) (p : List Byte) (length : Nat),
    length ≤ fuel → length ≤ p.length →
    word_loop fuel h p length
        = ((spec_words h (p.take length)).1, p.drop (length - length % 4), length % 4)
      ∧ (spec_words h (p.take length)).2 = (p.drop (length - length % 4)).take (length % 4) := by
  induction fuel with
  | zero =>
    intro h p length hf _
    have h0 : length = 0 := by omega
    subst h0
    simp [word_loop, spec_words]
  | succ fuel ih =>
    intro h p length hf hp
    by_cases h4 : 4 ≤ length
    · obtain ⟨n, rfl⟩ : ∃ n, length = n + 4 := ⟨length - 4, by omega⟩
      match p, hp with
      | b0 :: b1 :: b2 :: b3 :: q, hp =>
        have hq : n ≤ q.length := by simp at hp; omega
        have hmod : (n + 4) % 4 = n % 4 := by omega
        have hsub : n + 4 - n % 4 = (n - n % 4) + 4 := by omega
        have := ih (spec_word_round h (spec_le32 b0 b1 b2 b3)) q n (by omega) hq
        simp only [word_loop, h4, if_true, load_u32_cons, word_round_eq, Nat.add_sub_cancel,
          List.drop_succ_cons, List.take_succ_cons, spec_words, hmod, hsub]
        exact this
    · have hl : length % 4 = length := by omega
      have hs : (p.take length).length < 4 := by simp; omega
      simp [word_loop, h4, hl, spec_words_short _ _ hs]

theorem final_mix_eq (h : Nat) : final_mix h = spec_avalanche h := rfl

theorem u32_add_int_natCast (h n : Nat) :
    u32_add_int h (n : Int) = (h + n) % 2 ^ 32 := by
  unfold u32_add_int UINT32_MOD
  omega

theorem load_u8_take (p : List Byte) (t i : Nat) (hi : i < t) :
    load_u8 (p.take t) i = load_u8 p i := by
  simp [load_u8, List.getD_eq_getElem?_getD, List.getElem?_take, hi]

/-- Where the tail bytes are read as unsigned values (plain `char` unsigned, or
every tail byte below `0x80`), the `switch` computes the documented tail step. -/
theorem tail_switch_eq (signedChar : Bool) (p : List Byte) (t h : Nat)
    (ht : t < 4) (hp : t ≤ p.length)
    (hlow : signedChar = false ∨ ∀ i, i < t → load_u8 p i < 128) :
    tail_switch signedChar p t h = spec_tail h (p.take t) := by
  have hc : ∀ i, i < t → load_char signedChar p i = (load_u8 p i : Int) := by
    intro i hi
    unfold load_char
    rcases hlow with hs | hl
    · simp [hs]
    · have := hl i hi
      simp; omega
  have hlen : (p.take t).length = t := by simp [hp]
  have hg : ∀ i, i < t → ((p.take t).getD i 0).val = load_u8 p i := by
    intro i hi
    exact load_u8_take p t i hi
  have hmul : ∀ (x : Nat) (k : Nat), ((x : Int) * (k : Int)) = ((x * k : Nat) : Int) := by
    intro x k; push_cast; rfl
  match t, ht with
  | 0, _ => simp [tail_switch, spec_tail]
  | 1, _ =>
    simp only [tail_switch, tail_case_1, spec_tail, hlen, hc 0 (by omega), hg 0 (by omega),
      u32_add_int_natCast, UINT32_MOD, MURMURHASH_MAGIC]
    simp
  | 2, _ =>
    have e : (256 : Int) = ((256 : Nat) : Int) := rfl
    simp only [tail_switch, tail_case_2, tail_case_1, spec_tail, hlen, hc 0 (by omega),
      hc 1 (by omega), hg 0 (by omega), hg 1 (by omega), e, hmul,
      u32_add_int_natCast, UINT32_MOD, MURMURHASH_MAGIC]
    simp
  | 3, _ =>
    have e : (256 : Int) = ((256 : Nat) : Int) := rfl
    have e2 : (65536 : Int) = ((65536 : Nat) : Int) := rfl
    simp only [tail_switch, tail_case_3, tail_case_2, tail_case_1, spec_tail, hlen,
      hc 0 (by omega), hc 1 (by omega), hc 2 (by omega), hg 0 (by omega), hg 1 (by omega),
      hg 2 (by omega), e, e2, hmul, u32_add_int_natCast, UINT32_MOD, MURMURHASH_MAGIC]
    simp

/-- On every input whose tail bytes are read as unsigned values, and whose
length fits 32 bits, `murmur_hash_process` is the function `mix` of the spec. -/
theorem murmur_hash_process_eq_spec_mix (signedChar : Bool) (ptr : murmur_t)
    (hp : murmur_buffer_length ptr ≤ ptr.buffer.length)
    (h32 : murmur_buffer_length ptr < 2 ^ 32)
    (hlow : signedChar = false ∨
      ∀ i, i < murmur_buffer_length ptr % 4 →
        load_u8 (ptr.buffer.drop (murmur_buffer_length ptr - murmur_buffer_length ptr % 4)) i < 128) :
    murmur_hash_process signedChar ptr = spec_mix (contents ptr) := by
  have hmod : murmur_buffer_length ptr % UINT32_MOD = murmur_buffer_length ptr :=
    Nat.mod_eq_of_lt (by simpa [UINT32_MOD] using h32)
  have hl := word_loop_eq (murmur_buffer_length ptr)
    ((murmur_buffer_length ptr * MURMURHASH_MAGIC) % UINT32_MOD) ptr.buffer
    (murmur_buffer_length ptr) (Nat.le_refl _) hp
  have hclen : (contents ptr).length = murmur_buffer_length ptr := by
    simp [contents]; exact hp
  have hseed : spec_seed (contents ptr).length
      = (murmur_buffer_length ptr * MURMURHASH_MAGIC) % UINT32_MOD := by
    simp [spec_seed, hclen, MURMURHASH_MAGIC, UINT32_MOD]
  have ht : murmur_buffer_length ptr % 4
      ≤ (ptr.buffer.drop (murmur_buffer_length ptr - murmur_buffer_length ptr % 4)).length := by
    simp; omega
  unfold murmur_hash_process spec_mix
  simp only [hmod, hl.1, hseed, final_mix_eq]
  rw [tail_switch_eq signedChar _ _ _ (Nat.mod_lt _ (by decide)) ht hlow]
  unfold contents
  rw [hl.2]

/-! ## Lemmas on memory and on the accumulator struct -/

theorem xrealloc_length (heap : Nat → Byte) (block : List Byte) (size : Nat) :
    (xrealloc heap block size).length = size := by
  simp [xrealloc]
  omega

theorem xrealloc_take (heap : Nat → Byte) (block : List Byte) (size k : Nat)
    (hk : k ≤ block.length) (hs : k ≤ size) :
    (xrealloc heap block size).take k = block.take k := by
  simp [xrealloc, List.take_take, Nat.min_eq_left hs, List.take_append_of_le_length hk]

theorem memcpy_length (dst src : List Byte) (off n : Nat)
    (hd : off + n ≤ dst.length) (hs : n ≤ src.length) :
    (memcpy dst off src n).length = dst.length := by
  simp [memcpy]
  omega

theorem memcpy_take (dst src : List Byte) (off n : Nat)
    (hd : off + n ≤ dst.length) (hs : n ≤ src.length) :
    (memcpy dst off src n).take (off + n) = dst.take off ++ src.take n := by
  have h1 : (dst.take off ++ src.take n).length = off + n := by
    simp; omega
  unfold memcpy
  rw [List.take_append_of_le_length (by omega)]
  exact List.take_of_length_le (by omega)

/-- The doubling loop exits within `fuel + 1` tests when `fuel` doublings of the
start value reach `require`, and it exits without wrapping around. -/
theorem grow_loop_exits (require : Nat) (hr : require ≤ 2 ^ 63) (fuel : Nat) :
    ∀ c, 0 < c → require ≤ c * 2 ^ fuel →
      ∃ n, grow_loop (fuel + 1) c require = some n ∧ require ≤ n ∧ c ≤ n
        ∧ (n = c ∨ n < 2 * require) := by
  induction fuel with
  | zero =>
    intro c _ hle
    refine ⟨c, ?_, by omega, Nat.le_refl _, Or.inl rfl⟩
    have : ¬ c < require := by omega
    simp [grow_loop, this]
  | succ fuel ih =>
    intro c hc hle
    by_cases hlt : c < require
    · have hmod : (c * 2) % SIZE_MOD = c * 2 := by
        apply Nat.mod_eq_of_lt
        unfold SIZE_MOD
        omega
      obtain ⟨n, hn, h1, h2, h3⟩ := ih (c * 2) (by omega) (by
        rw [Nat.pow_succ] at hle
        calc require ≤ c * (2 ^ fuel * 2) := hle
          _ = c * 2 * 2 ^ fuel := by ring)
      refine ⟨n, ?_, h1, by omega, Or.inr (by omega)⟩
      rw [grow_loop]
      simp only [hlt, if_true, hmod]
      exact hn
    · refine ⟨c, ?_, by omega, Nat.le_refl _, Or.inl rfl⟩
      rw [grow_loop]
      simp [hlt]

/-- The bounded loop runs out of iterations exactly when every one of its tests
finds `newsize`, doubled modulo `2^64` so far, still below `require`. -/
theorem grow_loop_none_iff (require : Nat) (fuel : Nat) :
    ∀ c, c < SIZE_MOD →
      (grow_loop fuel c require = none ↔ ∀ i, i < fuel → (c * 2 ^ i) % SIZE_MOD < require) := by
  induction fuel with
  | zero =>
    intro c _
    simp [grow_loop]
  | succ fuel ih =>
    intro c hc
    rw [grow_loop]
    by_cases hlt : c < require
    · simp only [hlt, if_true]
      rw [ih ((c * 2) % SIZE_MOD) (Nat.mod_lt _ (by decide))]
      constructor
      · intro h i hi
        match i with
        | 0 => simpa [Nat.mod_eq_of_lt hc] using hlt
        | j + 1 =>
          have := h j (by omega)
          rw [Nat.mod_mul_mod] at this
          rw [Nat.pow_succ, Nat.mul_comm (2 ^ j) 2, ← Nat.mul_assoc]
          exact this
      · intro h i hi
        have := h (i + 1) (by omega)
        rw [Nat.pow_succ, Nat.mul_comm (2 ^ i) 2, ← Nat.mul_assoc] at this
        rw [Nat.mod_mul_mod]
        exact this
    · simp only [hlt, if_false]
      constructor
      · intro h
        cases h
      · intro h
        have := h 0 (by omega)
        simp [Nat.mod_eq_of_lt hc] at this
        omega

/-- When `GROW_FUEL` tests do not end the doubling loop, no number of tests does:
`newsize` has become 0 and stays below `require` for ever. -/
theorem grow_loop_none_forever (require c : Nat) (hc : c < SIZE_MOD)
    (h : grow_loop GROW_FUEL c require = none) (fuel : Nat) :
    grow_loop fuel c require = none := by
  rw [grow_loop_none_iff require GROW_FUEL c hc] at h
  rw [grow_loop_none_iff require fuel c hc]
  intro i _
  by_cases hi : i < GROW_FUEL
  · exact h i hi
  · have h64 := h 64 (by decide)
    have hz : ∀ j, 64 ≤ j → (c * 2 ^ j) % SIZE_MOD = 0 := by
      intro j hj
      obtain ⟨k, rfl⟩ : ∃ k, j = 64 + k := ⟨j - 64, by omega⟩
      rw [Nat.pow_add, ← Nat.mul_assoc, Nat.mul_comm c, Nat.mul_assoc]
      exact Nat.mul_mod_right _ _
    rw [hz 64 (Nat.le_refl _)] at h64
    rw [hz i (by unfold GROW_FUEL at hi; omega)]
    exact h64

/-- The doubling loop, started at `c > 0` with `require` at most `2^63`, exits with
`c * 2^k` for the least `k` that brings it to `require`; no doubling wraps. -/
theorem grow_loop_least (require : Nat) (hr : require ≤ 2 ^ 63) (fuel : Nat) :
    ∀ c, 0 < c → require ≤ c * 2 ^ fuel →
      ∃ k, k ≤ fuel ∧ grow_loop (fuel + 1) c require = some (c * 2 ^ k)
        ∧ require ≤ c * 2 ^ k ∧ ∀ j, j < k → c * 2 ^ j < require := by
  induction fuel with
  | zero =>
    intro c _ hle
    have hn : ¬ c < require := by omega
    refine ⟨0, Nat.le_refl _, ?_, by omega, ?_⟩
    · simp [grow_loop, hn]
    · intro j hj; omega
  | succ fuel ih =>
    intro c hc hle
    by_cases hlt : c < require
    · have hmod : (c * 2) % SIZE_MOD = c * 2 := by
        apply Nat.mod_eq_of_lt
        unfold SIZE_MOD
        omega
      obtain ⟨k, hk, hg, h1, h2⟩ := ih (c * 2) (by omega) (by
        rw [Nat.pow_succ] at hle
        calc require ≤ c * (2 ^ fuel * 2) := hle
          _ = c * 2 * 2 ^ fuel := by ring)
      have hpow : ∀ i, c * 2 ^ (i + 1) = c * 2 * 2 ^ i := by
        intro i; rw [Nat.pow_succ]; ring
      refine ⟨k + 1, by omega, ?_, by rw [hpow]; exact h1, ?_⟩
      · rw [grow_loop]
        simp only [hlt, if_true, hmod, hpow]
        exact hg
      · intro j hj
        match j with
        | 0 => simpa using hlt
        | i + 1 =>
          rw [hpow]
          exact h2 i (by omega)
    · refine ⟨0, Nat.zero_le _, ?_, by simp; omega, ?_⟩
      · rw [grow_loop]
        simp [hlt]
      · intro j hj; omega

/-- More iterations allowed do not change the result of a loop that exited. -/
theorem grow_loop_mono (require : Nat) (fuel : Nat) :
    ∀ c n, grow_loop fuel c require = some n →
      ∀ extra, grow_loop (fuel + extra) c require = some n := by
  induction fuel with
  | zero =>
    intro c n h
    simp [grow_loop] at h
  | succ fuel ih =>
    intro c n h extra
    rw [grow_loop] at h
    have he : fuel + 1 + extra = (fuel + extra) + 1 := by omega
    rw [he, grow_loop]
    by_cases hlt : c < require
    · simp only [hlt, if_true] at h ⊢
      exact ih _ n h extra
    · simp only [hlt, if_false] at h ⊢
      exact h

/-- Beyond half the `size_t` range the loop does not exit: from capacity 64 and
`require = 2^63 + 1` the doubled value wraps to 0 and stays below `require`. -/
theorem grow_loop_hangs_beyond_half (fuel : Nat) :
    grow_loop fuel 64 (2 ^ 63 + 1) = none :=
  grow_loop_none_forever (2 ^ 63 + 1) 64 (by decide) (by decide) fuel

/-- The result of `murmur_update` on a struct of capacity `c > 0`, with the new
length `n` at most `2^63`: the call returns, the logical length is `n`, and the
capacity is `c * 2^k` for the least `k ≥ 0` with `n ≤ c * 2^k`. -/
theorem murmur_update_ptr_shape (heap : Nat → Byte) (ptr : murmur_t) (str : List Byte)
    (hm : 0 < ptr.memsize) (hsize : murmur_buffer_length ptr + str.length ≤ 2 ^ 63) :
    ∃ ptr1 k, murmur_update_ptr heap ptr str = some ptr1
      ∧ murmur_buffer_length ptr1 = murmur_buffer_length ptr + str.length
      ∧ ptr1.memsize = ptr.memsize * 2 ^ k
      ∧ murmur_buffer_length ptr + str.length ≤ ptr.memsize * 2 ^ k
      ∧ ∀ j, j < k → ptr.memsize * 2 ^ j < murmur_buffer_length ptr + str.length := by
  simp only [murmur_buffer_length] at hsize ⊢
  have hreq : (ptr.p + str.length) % SIZE_MOD = ptr.p + str.length := by
    apply Nat.mod_eq_of_lt
    unfold SIZE_MOD
    omega
  by_cases hlt : ptr.memsize < ptr.p + str.length
  · obtain ⟨k, _, hg, h1, h2⟩ := grow_loop_least (ptr.p + str.length) hsize 64 ptr.memsize hm
      (by
        calc ptr.p + str.length ≤ 2 ^ 63 := hsize
          _ ≤ 1 * 2 ^ 64 := by norm_num
          _ ≤ ptr.memsize * 2 ^ 64 := Nat.mul_le_mul_right _ hm)
    simp only [murmur_update_ptr, murmur_buffer_length, hreq, hlt, if_true, GROW_FUEL, hg]
    exact ⟨_, k, rfl, rfl, rfl, h1, h2⟩
  · simp only [murmur_update_ptr, murmur_buffer_length, hreq, hlt, if_false]
    refine ⟨_, 0, rfl, rfl, by simp, by simp; omega, ?_⟩
    intro j hj; omega

/-- The struct `small_acc bs` is the one `murmur_init` and one `murmur_update` with
`bs` produce on a zero-filled heap. -/
theorem small_acc_reachable (bs : List Byte) (h : bs.length ≤ 64) :
    murmur_update_ptr (fun _ => 0) (murmur_init (fun _ => 0)) bs = some (small_acc bs) := by
  have hreq : bs.length % SIZE_MOD = bs.length :=
    Nat.mod_eq_of_lt (by unfold SIZE_MOD; omega)
  have hlt : ¬ 64 < bs.length := by omega
  have hx : xmalloc (fun _ => (0 : Byte)) 64 = List.replicate 64 0 := by decide
  simp only [murmur_update_ptr, murmur_init, murmur_buffer_length, MURMURHASH_BUFFER_INIT,
    Nat.zero_add, hreq, hlt, if_false, memcpy, hx, List.take_zero, List.nil_append,
    List.take_length, List.drop_replicate, small_acc]

/-- One `murmur_update` on a valid struct, with the new length at most `2^63`:
the call returns, the contents are the old contents followed by the string, the
struct stays valid and the capacity does not shrink. -/
theorem murmur_update_ptr_spec (heap : Nat → Byte) (ptr : murmur_t) (str : List Byte)
    (hv : Valid ptr) (hsize : murmur_buffer_length ptr + str.length ≤ 2 ^ 63) :
    ∃ ptr1, murmur_update_ptr heap ptr str = some ptr1
      ∧ contents ptr1 = contents ptr ++ str
      ∧ murmur_buffer_length ptr1 = murmur_buffer_length ptr + str.length
      ∧ Valid ptr1 ∧ ptr.memsize ≤ ptr1.memsize := by
  obtain ⟨hp, hb, hm⟩ := hv
  simp only [murmur_buffer_length] at hsize
  have hreq : (ptr.p + str.length) % SIZE_MOD = ptr.p + str.length := by
    apply Nat.mod_eq_of_lt
    unfold SIZE_MOD
    omega
  by_cases hlt : ptr.memsize < ptr.p + str.length
  · obtain ⟨n, hn, h1, h2, _⟩ := grow_loop_exits (ptr.p + str.length) hsize 64 ptr.memsize hm
      (by
        calc ptr.p + str.length ≤ 2 ^ 63 := hsize
          _ ≤ 1 * 2 ^ 64 := by norm_num
          _ ≤ ptr.memsize * 2 ^ 64 := Nat.mul_le_mul_right _ hm)
    have hlenR : (xrealloc heap ptr.buffer n).length = n := xrealloc_length _ _ _
    simp only [murmur_update_ptr, murmur_buffer_length, hreq, hlt, if_true, GROW_FUEL, hn]
    refine ⟨_, rfl, ?_, ?_, ?_, ?_⟩
    · simp only [contents, murmur_buffer_length, murmur_realloc]
      rw [memcpy_take _ _ _ _ (by omega) (Nat.le_refl _),
        xrealloc_take _ _ _ _ (by omega) (by omega), List.take_length]
    · simp [murmur_buffer_length]
    · refine ⟨by simpa using h1, ?_, by show 0 < n; omega⟩
      simp only [murmur_realloc]
      rw [memcpy_length _ _ _ _ (by omega) (Nat.le_refl _), hlenR]
    · simpa using h2
  · simp only [murmur_update_ptr, murmur_buffer_length, hreq, hlt, if_false]
    refine ⟨_, rfl, ?_, ?_, ?_, ?_⟩
    · simp only [contents, murmur_buffer_length]
      rw [memcpy_take _ _ _ _ (by omega) (Nat.le_refl _), List.take_length]
    · simp [murmur_buffer_length]
    · refine ⟨by simp; omega, ?_, hm⟩
      simp only []
      rw [memcpy_length _ _ _ _ (by omega) (Nat.le_refl _), hb]
    · exact Nat.le_refl _

theorem load_char_take (signedChar : Bool) (p : List Byte) (t i : Nat) (hi : i < t) :
    load_char signedChar (p.take t) i = load_char signedChar p i := by
  unfold load_char
  rw [load_u8_take p t i hi]

theorem tail_switch_take (signedChar : Bool) (p : List Byte) (t h : Nat) (ht : t < 4) :
    tail_switch signedChar (p.take t) t h = tail_switch signedChar p t h := by
  match t, ht with
  | 0, _ => simp [tail_switch]
  | 1, _ => simp [tail_switch, tail_case_1, load_char_take]
  | 2, _ => simp [tail_switch, tail_case_2, tail_case_1, load_char_take]
  | 3, _ => simp [tail_switch, tail_case_3, tail_case_2, tail_case_1, load_char_take]

/-- The hash as a function of the logical contents and the logical length alone. -/
theorem murmur_hash_process_eq (signedChar : Bool) (ptr : murmur_t)
    (hp : murmur_buffer_length ptr ≤ ptr.buffer.length) :
    murmur_hash_process signedChar ptr
      = final_mix (tail_switch signedChar
          (spec_words ((murmur_buffer_length ptr % UINT32_MOD * MURMURHASH_MAGIC) % UINT32_MOD)
            ((contents ptr).take (murmur_buffer_length ptr % UINT32_MOD))).2
          (murmur_buffer_length ptr % UINT32_MOD % 4)
          (spec_words ((murmur_buffer_length ptr % UINT32_MOD * MURMURHASH_MAGIC) % UINT32_MOD)
            ((contents ptr).take (murmur_buffer_length ptr % UINT32_MOD))).1) := by
  have hle : murmur_buffer_length ptr % UINT32_MOD ≤ murmur_buffer_length ptr :=
    Nat.mod_le _ _
  have hl := word_loop_eq (murmur_buffer_length ptr % UINT32_MOD)
    ((murmur_buffer_length ptr % UINT32_MOD * MURMURHASH_MAGIC) % UINT32_MOD) ptr.buffer
    (murmur_buffer_length ptr % UINT32_MOD) (Nat.le_refl _) (by omega)
  have htake : (contents ptr).take (murmur_buffer_length ptr % UINT32_MOD)
      = ptr.buffer.take (murmur_buffer_length ptr % UINT32_MOD) := by
    simp [contents, List.take_take, Nat.min_eq_left hle]
  unfold murmur_hash_process
  simp only [hl.1, htake, hl.2]
  rw [tail_switch_take _ _ _ _ (Nat.mod_lt _ (by decide))]

/-- Two structs with the same logical contents and logical length hash alike. -/
theorem murmur_hash_process_congr (signedChar : Bool) (ptr1 ptr2 : murmur_t)
    (h1 : murmur_buffer_length ptr1 ≤ ptr1.buffer.length)
    (h2 : murmur_buffer_length ptr2 ≤ ptr2.buffer.length)
    (hlen : murmur_buffer_length ptr1 = murmur_buffer_length ptr2)
    (hc : contents ptr1 = contents ptr2) :
    murmur_hash_process signedChar ptr1 = murmur_hash_process signedChar ptr2 := by
  rw [murmur_hash_process_eq signedChar ptr1 h1, murmur_hash_process_eq signedChar ptr2 h2,
    hlen, hc]

/-! ## Lemmas on the Ruby-level functions -/

theorem set_same (space : ObjectSpace) (self : VALUE) (obj : RData)
    (hobj : space[self]? = some obj) : space.set self obj = space := by
  obtain ⟨h, _⟩ := List.getElem?_eq_some.1 hobj
  apply List.ext_getElem?
  intro n
  rw [List.getElem?_set]
  by_cases hn : self = n
  · subst hn
    simp [h, hobj]
  · simp [hn]

theorem lookup_set (space : ObjectSpace) (self : VALUE) (obj new : RData)
    (hobj : space[self]? = some obj) : (space.set self new)[self]? = some new := by
  obtain ⟨h, _⟩ := List.getElem?_eq_some.1 hobj
  exact List.getElem?_set_self h

theorem murmur_init_valid (heap : Nat → Byte) : Valid (murmur_init heap) := by
  simp [Valid, murmur_init, xmalloc, MURMURHASH_BUFFER_INIT]

theorem murmur_init_contents (heap : Nat → Byte) : contents (murmur_init heap) = [] := by
  simp [contents, murmur_init, murmur_buffer_length]

theorem murmur_alloc_lookup (heap : Nat → Byte) (space : ObjectSpace) :
    (murmur_alloc heap space).1[(murmur_alloc heap space).2]?
      = some { frozen := false, data := murmur_init heap } := by
  simp [murmur_alloc]

/-- One `murmur_update` call on an object with a valid struct. -/
theorem murmur_update_spec (heap : Nat → Byte) (space : ObjectSpace) (self : VALUE)
    (obj : RData) (str : List Byte) (hobj : space[self]? = some obj) (hv : Valid obj.data)
    (hsize : murmur_buffer_length obj.data + str.length ≤ 2 ^ 63) :
    ∃ ptr1, murmur_update heap space self str
        = .ok (space.set self { obj with data := ptr1 }) self
      ∧ contents ptr1 = contents obj.data ++ str
      ∧ murmur_buffer_length ptr1 = murmur_buffer_length obj.data + str.length
      ∧ Valid ptr1 ∧ obj.data.memsize ≤ ptr1.memsize := by
  obtain ⟨ptr1, hu, h1, h2, h3, h4⟩ := murmur_update_ptr_spec heap obj.data str hv hsize
  exact ⟨ptr1, by simp [murmur_update, hobj, hu], h1, h2, h3, h4⟩

/-- A sequence of `murmur_update` calls on an object with a valid struct. -/
theorem update_all_spec (heap : Nat → Byte) (self : VALUE) (strs : List (List Byte)) :
    ∀ (space : ObjectSpace) (obj : RData), space[self]? = some obj → Valid obj.data →
      murmur_buffer_length obj.data + strs.flatten.length ≤ 2 ^ 63 →
      ∃ ptr1, update_all heap space self strs
          = .ok (space.set self { obj with data := ptr1 }) self
        ∧ contents ptr1 = contents obj.data ++ strs.flatten
        ∧ murmur_buffer_length ptr1 = murmur_buffer_length obj.data + strs.flatten.length
        ∧ Valid ptr1 ∧ obj.data.memsize ≤ ptr1.memsize := by
  induction strs with
  | nil =>
    intro space obj hobj hv _
    refine ⟨obj.data, ?_, by simp, by simp, hv, Nat.le_refl _⟩
    simp [update_all, set_same space self obj hobj]
  | cons str rest ih =>
    intro space obj hobj hv hsize
    simp only [List.flatten_cons, List.length_append] at hsize
    obtain ⟨ptr1, hu, h1, h2, h3, h4⟩ :=
      murmur_update_spec heap space self obj str hobj hv (by omega)
    obtain ⟨ptr2, hu2, k1, k2, k3, k4⟩ :=
      ih (space.set self { obj with data := ptr1 }) { obj with data := ptr1 }
        (lookup_set space self obj _ hobj) h3 (by simp only [h2]; omega)
    refine ⟨ptr2, ?_, ?_, ?_, k3, Nat.le_trans h4 k4⟩
    · simp [update_all, hu, Outcome.andThen, hu2, List.set_set]
    · simp [k1, h1]
    · simp only [k2, h2, List.flatten_cons, List.length_append]; omega

theorem final_mix_lt (h : Nat) : final_mix h < 2 ^ 32 := by
  unfold final_mix
  have hlt : ∀ x : Nat, x % UINT32_MOD < 2 ^ 32 := by
    intro x
    exact Nat.mod_lt _ (by decide)
  apply Nat.xor_lt_two_pow (hlt _)
  rw [Nat.shiftRight_eq_div_pow]
  exact Nat.lt_of_le_of_lt (Nat.div_le_self _ _) (hlt _)

theorem murmur_hash_process_lt (signedChar : Bool) (ptr : murmur_t) :
    murmur_hash_process signedChar ptr < 2 ^ 32 :=
  final_mix_lt _

/-- A valid struct holds as many bytes as its logical length says. -/
theorem valid_le_buffer (ptr : murmur_t) (hv : Valid ptr) :
    murmur_buffer_length ptr ≤ ptr.buffer.length := by
  have := hv.1; have := hv.2.1
  simp only [murmur_buffer_length]; omega

theorem valid_contents_length (ptr : murmur_t) (hv : Valid ptr) :
    (contents ptr).length = murmur_buffer_length ptr := by
  have := valid_le_buffer ptr hv
  simp [contents]; omega

/-- The function `murmur_s_rawdigest` with at least one argument of length at most
`2^63`: it returns the hash of a valid struct that holds exactly the first argument. -/
theorem murmur_s_rawdigest_spec (signedChar : Bool) (heap : Nat → Byte) (space : ObjectSpace)
    (str : List Byte) (rest : List (List Byte)) (hsize : str.length ≤ 2 ^ 63) :
    ∃ ptr, murmur_s_rawdigest signedChar heap space (str :: rest)
        = .ok ((murmur_alloc heap space).1.set (murmur_alloc heap space).2
            { frozen := false, data := ptr }) (murmur_hash_process signedChar ptr)
      ∧ Valid ptr ∧ contents ptr = str ∧ murmur_buffer_length ptr = str.length := by
  have hl := murmur_alloc_lookup heap space
  obtain ⟨ptr, hu, c, l, v, _⟩ := murmur_update_spec heap _ _ _ str hl
    (murmur_init_valid heap) (by simpa [murmur_init, murmur_buffer_length] using hsize)
  refine ⟨ptr, ?_, v, ?_, ?_⟩
  · simp [murmur_s_rawdigest, hu, Outcome.andThen, murmur_to_i, lookup_set _ _ _ _ hl]
  · rw [c, murmur_init_contents]; rfl
  · rw [l]; simp [murmur_init, murmur_buffer_length]

/-- One `murmur_reset` call on an object. -/
theorem murmur_reset_spec (space : ObjectSpace) (self : VALUE) (obj : RData)
    (hobj : space[self]? = some obj) :
    murmur_reset space self
      = .ok (space.set self { obj with data := { obj.data with p := 0 } }) self := by
  simp [murmur_reset, hobj]

theorem reset_valid (ptr : murmur_t) (hv : Valid ptr) : Valid { ptr with p := 0 } :=
  ⟨Nat.zero_le _, hv.2.1, hv.2.2⟩

/-- The value `murmur_to_i` and the bytes `murmur_finish` return for an object. -/
theorem murmur_to_i_spec (signedChar : Bool) (space : ObjectSpace) (self : VALUE) (obj : RData)
    (hobj : space[self]? = some obj) :
    murmur_to_i signedChar space self = .ok space (murmur_hash_process signedChar obj.data)
      ∧ murmur_finish signedChar space self
          = .ok space (digest_bytes (murmur_hash_process signedChar obj.data)) := by
  simp [murmur_to_i, murmur_finish, hobj]

/-- Two valid structs with the same logical contents hash alike. -/
theorem hash_of_contents (signedChar : Bool) (ptr1 ptr2 : murmur_t) (h1 : Valid ptr1)
    (h2 : Valid ptr2) (hc : contents ptr1 = contents ptr2) :
    murmur_hash_process signedChar ptr1 = murmur_hash_process signedChar ptr2 := by
  apply murmur_hash_process_congr signedChar ptr1 ptr2 (valid_le_buffer ptr1 h1)
    (valid_le_buffer ptr2 h2) _ hc
  rw [← valid_contents_length ptr1 h1, ← valid_contents_length ptr2 h2, hc]

/-- The body of `murmur_initialize_copy` on two valid structs: the destination ends
up valid, with the contents and logical length of the source, and with the larger
of the two capacities. -/
theorem murmur_initialize_copy_ptr_spec (heap : Nat → Byte) (c o : murmur_t)
    (hvc : Valid c) (hvo : Valid o) :
    contents (murmur_initialize_copy_ptr heap c o) = contents o
      ∧ murmur_buffer_length (murmur_initialize_copy_ptr heap c o) = murmur_buffer_length o
      ∧ Valid (murmur_initialize_copy_ptr heap c o)
      ∧ (murmur_initialize_copy_ptr heap c o).memsize = max c.memsize o.memsize := by
  obtain ⟨hcp, hcb, hcm⟩ := hvc
  obtain ⟨hop, hob, hom⟩ := hvo
  have hz : ∀ (dst : List Byte), o.p ≤ dst.length →
      (memcpy dst 0 o.buffer o.p).take o.p = o.buffer.take o.p
        ∧ (memcpy dst 0 o.buffer o.p).length = dst.length := by
    intro dst hd
    have h1 := memcpy_take dst o.buffer 0 o.p (by omega) (by omega)
    have h2 := memcpy_length dst o.buffer 0 o.p (by omega) (by omega)
    simp only [Nat.zero_add, List.take_zero, List.nil_append] at h1
    exact ⟨h1, h2⟩
  by_cases hlt : c.memsize < o.memsize
  · have hlen : (xrealloc heap c.buffer o.memsize).length = o.memsize := xrealloc_length _ _ _
    obtain ⟨h1, h2⟩ := hz (xrealloc heap c.buffer o.memsize) (by omega)
    simp only [murmur_initialize_copy_ptr, hlt, if_true, murmur_realloc, contents,
      murmur_buffer_length, Valid]
    refine ⟨h1, trivial, ⟨hop, by rw [h2, hlen], hom⟩, by omega⟩
  · obtain ⟨h1, h2⟩ := hz c.buffer (by omega)
    simp only [murmur_initialize_copy_ptr, hlt, if_false, contents, murmur_buffer_length, Valid]
    refine ⟨h1, trivial, ⟨by omega, by rw [h2, hcb], hcm⟩, by omega⟩

/-- The function `murmur_initialize_copy` on two distinct objects, the destination
not frozen. -/
theorem murmur_initialize_copy_ok (heap : Nat → Byte) (space : ObjectSpace) (copy origin : VALUE)
    (c o : RData) (hne : copy ≠ origin) (hc : space[copy]? = some c)
    (ho : space[origin]? = some o) (hf : c.frozen = false) :
    murmur_initialize_copy heap space copy origin
      = .ok (space.set copy { c with data := murmur_initialize_copy_ptr heap c.data o.data })
          copy := by
  simp [murmur_initialize_copy, hne, hc, ho, hf]

/-- The function `murmur_initialize_copy` on two distinct objects, the destination
frozen. -/
theorem murmur_initialize_copy_frozen (heap : Nat → Byte) (space : ObjectSpace)
    (copy origin : VALUE) (c : RData) (hne : copy ≠ origin) (hc : space[copy]? = some c)
    (hf : c.frozen = true) :
    murmur_initialize_copy heap space copy origin = .raised .FrozenError space := by
  simp [murmur_initialize_copy, hne, hc, hf]

/-- The loop exits after exactly `k` doublings when `k` is the first exponent
with `require ≤ c * 2^k` and that product fits a `size_t`. -/
theorem grow_loop_steps (require : Nat) (k : Nat) :
    ∀ c, (∀ j, j < k → c * 2 ^ j < require) → require ≤ c * 2 ^ k → c * 2 ^ k < SIZE_MOD →
      grow_loop (k + 1) c require = some (c * 2 ^ k) := by
  induction k with
  | zero =>
    intro c _ hle _
    have hn : ¬ c < require := by simpa using hle
    simp [grow_loop, hn]
  | succ k ih =>
    intro c hlow hle hfit
    have hpow : ∀ i, c * 2 ^ (i + 1) = c * 2 * 2 ^ i := by
      intro i; rw [Nat.pow_succ]; ring
    have hlt : c < require := by simpa using hlow 0 (by omega)
    have hc2 : c * 2 < SIZE_MOD := by
      have h1 : 1 ≤ 2 ^ k := Nat.one_le_two_pow
      have h2 : c * 2 * 1 ≤ c * 2 * 2 ^ k := Nat.mul_le_mul_left _ h1
      rw [hpow] at hfit
      omega
    rw [grow_loop]
    simp only [hlt, if_true, Nat.mod_eq_of_lt hc2, hpow]
    apply ih (c * 2)
    · intro j hj
      rw [← hpow]
      exact hlow (j + 1) (by omega)
    · rw [← hpow]; exact hle
    · rw [← hpow]; exact hfit

/-- One `murmur_update` call on an object of capacity at least 1, the new length
at most `2^63`: the call returns and the struct has the shape
`murmur_update_ptr_shape` gives. -/
theorem murmur_update_shape (heap : Nat → Byte) (space : ObjectSpace) (self : VALUE)
    (obj : RData) (str : List Byte) (hobj : space[self]? = some obj)
    (hm : 0 < obj.data.memsize)
    (hsize : murmur_buffer_length obj.data + str.length ≤ 2 ^ 63) :
    ∃ ptr1 k, murmur_update heap space self str
        = .ok (space.set self { obj with data := ptr1 }) self
      ∧ murmur_buffer_length ptr1 = murmur_buffer_length obj.data + str.length
      ∧ ptr1.memsize = obj.data.memsize * 2 ^ k
      ∧ murmur_buffer_length obj.data + str.length ≤ obj.data.memsize * 2 ^ k
      ∧ ∀ j, j < k → obj.data.memsize * 2 ^ j < murmur_buffer_length obj.data + str.length := by
  obtain ⟨ptr1, k, hu, h1, h2, h3, h4⟩ := murmur_update_ptr_shape heap obj.data str hm hsize
  exact ⟨ptr1, k, by simp [murmur_update, hobj, hu], h1, h2, h3, h4⟩

/-- An accumulator of logical length 0 hashes to 0, whatever its block holds. -/
theorem murmur_hash_process_empty (signedChar : Bool) (ptr : murmur_t)
    (h0 : murmur_buffer_length ptr = 0) : murmur_hash_process signedChar ptr = 0 := by
  unfold murmur_hash_process
  rw [h0]
  simp [word_loop, tail_switch, final_mix]

/-! ## Lemmas on the accumulator invariant -/

theorem inv_init (heap : Nat → Byte) : Inv (murmur_init heap) :=
  ⟨Nat.zero_le _, 0, rfl⟩

theorem inv_reset (ptr : murmur_t) (h : Inv ptr) : Inv { ptr with p := 0 } :=
  ⟨Nat.zero_le _, h.2⟩

/-- The invariant after `murmur_update`, the new length at most `2^63`. -/
theorem inv_update (heap : Nat → Byte) (ptr : murmur_t) (str : List Byte) (h : Inv ptr)
    (hsize : murmur_buffer_length ptr + str.length ≤ 2 ^ 63) :
    ∃ ptr1, murmur_update_ptr heap ptr str = some ptr1 ∧ Inv ptr1
      ∧ murmur_buffer_length ptr1 = murmur_buffer_length ptr + str.length := by
  obtain ⟨_, j, hj⟩ := h
  have hm : 0 < ptr.memsize := by
    rw [hj]
    exact Nat.mul_pos (by decide) (Nat.two_pow_pos j)
  obtain ⟨ptr1, k, hu, h1, h2, h3, _⟩ := murmur_update_ptr_shape heap ptr str hm hsize
  refine ⟨ptr1, hu, ⟨by rw [h1, h2]; exact h3, j + k, ?_⟩, h1⟩
  rw [h2, hj, Nat.pow_add, Nat.mul_assoc]

/-- The invariant after the body of `murmur_initialize_copy`: the destination gets
the larger of the two capacities, which is at least the copied length. -/
theorem inv_copy (heap : Nat → Byte) (c o : murmur_t) (hc : Inv c) (ho : Inv o) :
    Inv (murmur_initialize_copy_ptr heap c o)
      ∧ (murmur_initialize_copy_ptr heap c o).memsize = max c.memsize o.memsize
      ∧ murmur_buffer_length (murmur_initialize_copy_ptr heap c o) = murmur_buffer_length o
      ∧ murmur_buffer_length o ≤ (murmur_initialize_copy_ptr heap c o).memsize := by
  obtain ⟨_, jc, hjc⟩ := hc
  obtain ⟨hop, jo, hjo⟩ := ho
  simp only [murmur_buffer_length] at hop ⊢
  by_cases hlt : c.memsize < o.memsize
  · simp only [murmur_initialize_copy_ptr, hlt, if_true, murmur_realloc, murmur_buffer_length,
      Inv]
    exact ⟨⟨hop, jo, hjo⟩, by omega, trivial, hop⟩
  · simp only [murmur_initialize_copy_ptr, hlt, if_false, murmur_buffer_length, Inv]
    exact ⟨⟨by omega, jc, hjc⟩, by omega, trivial, by omega⟩

theorem spaceInv_lookup (space : ObjectSpace) (self : VALUE) (obj : RData)
    (h : SpaceInv space) (hobj : space[self]? = some obj) : Inv obj.data :=
  h obj (List.getElem?_mem hobj)

theorem spaceInv_set (space : ObjectSpace) (self : VALUE) (new : RData)
    (h : SpaceInv space) (hnew : Inv new.data) : SpaceInv (space.set self new) := by
  intro obj hmem
  rcases List.mem_or_eq_of_mem_set hmem with hin | heq
  · exact h obj hin
  · rw [heq]; exact hnew

/-! ## The hash engine against the documented algorithm -/

/-- C1: for a byte sequence `b` whose length is a multiple of 4 and below `2^32`,
`murmur_hash_process` over an accumulator holding `b` returns the documented
value: the seed `(len * 0x5bd1e995) mod 2^32`, one round `h = ((h + k) * m) mod 2^32;
h ^= h >> 16` per consecutive little-endian 4-byte word `k`, all of `b` consumed by
these rounds, no tail round, then the final avalanche. -/
theorem murmur_hash_process_word_aligned (signedChar : Bool) (ptr : murmur_t) (b : List Byte)
    (hlen : murmur_buffer_length ptr = b.length) (hb : contents ptr = b)
    (h4 : b.length % 4 = 0) (h32 : b.length < 2 ^ 32) :
    murmur_hash_process signedChar ptr = spec_avalanche (spec_words (spec_seed b.length) b).1
      ∧ (spec_words (spec_seed b.length) b).2 = [] := by
  have hp : murmur_buffer_length ptr ≤ ptr.buffer.length := by
    have : (contents ptr).length = b.length := by rw [hb]
    simp [contents] at this
    omega
  have hl := word_loop_eq b.length (spec_seed b.length) ptr.buffer b.length (Nat.le_refl _)
    (by omega)
  have hbt : ptr.buffer.take b.length = b := by
    rw [← hlen]; exact hb
  have htail : (spec_words (spec_seed b.length) b).2 = [] := by
    have := hl.2
    rw [hbt, h4] at this
    simpa using this
  refine ⟨?_, htail⟩
  rw [murmur_hash_process_eq_spec_mix signedChar ptr hp (by omega)
    (Or.inr (by intro i hi; rw [hlen, h4] at hi; omega)), hb]
  simp [spec_mix, htail, spec_tail]

theorem murmur_hash_process_word_aligned_witness :
    murmur_hash_process true ⟨[0x74, 0x65, 0x73, 0x74, 0xff, 0xff], 4, 6⟩
        = spec_avalanche (spec_words (spec_seed 4) [0x74, 0x65, 0x73, 0x74]).1
      ∧ (spec_words (spec_seed 4) [0x74, 0x65, 0x73, 0x74]).2 = [] :=
  murmur_hash_process_word_aligned true ⟨[0x74, 0x65, 0x73, 0x74, 0xff, 0xff], 4, 6⟩
    [0x74, 0x65, 0x73, 0x74] rfl rfl (by decide) (by decide)

/-- C2 (failing input): on a target whose plain `char` is signed, hashing the single
byte `0x80` adds `-128` to `h` in the tail step, so `rawdigest` returns 1930272951,
while the documented algorithm, which adds the unsigned value 128, gives 3607323599;
on a target whose plain `char` is unsigned the code returns the documented value. -/
theorem murmur_hash_process_sign_extends_tail :
    (murmur_s_rawdigest true (fun _ => 0) [] [[0x80]]).val? = some 1930272951
      ∧ spec_mix [0x80] = 3607323599
      ∧ (murmur_s_rawdigest false (fun _ => 0) [] [[0x80]]).val? = some 3607323599 := by
  decide

/-! ## The accumulator -/

/-- C3 (incremental equivalence): for every list of byte sequences `b1, ..., bn`
(`n ≥ 0`, total length at most `2^63`), `murmur_update` with `b1, ..., bn` in order
on a freshly allocated accumulator followed by `murmur_finish` returns, and returns
the same bytes as a single `murmur_update` with `b1 ++ ... ++ bn` on a freshly
allocated accumulator followed by `murmur_finish`. -/
theorem incremental_equivalence (signedChar : Bool) (heap1 heap2 : Nat → Byte)
    (space1 space2 : ObjectSpace) (bs : List (List Byte))
    (hsize : bs.flatten.length ≤ 2 ^ 63) :
    ∃ d, ((update_all heap1 (murmur_alloc heap1 space1).1 (murmur_alloc heap1 space1).2 bs).andThen
            (fun s v => murmur_finish signedChar s v)).val? = some d
      ∧ ((murmur_update heap2 (murmur_alloc heap2 space2).1 (murmur_alloc heap2 space2).2
            bs.flatten).andThen (fun s v => murmur_finish signedChar s v)).val? = some d := by
  have hl1 := murmur_alloc_lookup heap1 space1
  have hl2 := murmur_alloc_lookup heap2 space2
  obtain ⟨ptr1, hu1, c1, l1, v1, _⟩ := update_all_spec heap1 _ bs _ _ hl1
    (murmur_init_valid heap1) (by simpa [murmur_init, murmur_buffer_length] using hsize)
  obtain ⟨ptr2, hu2, c2, l2, v2, _⟩ := murmur_update_spec heap2 _ _ _ bs.flatten hl2
    (murmur_init_valid heap2) (by simpa [murmur_init, murmur_buffer_length] using hsize)
  refine ⟨digest_bytes (murmur_hash_process signedChar ptr1), ?_, ?_⟩
  · simp [hu1, Outcome.andThen, murmur_finish, lookup_set _ _ _ _ hl1, Outcome.val?]
  · have hh : murmur_hash_process signedChar ptr2 = murmur_hash_process signedChar ptr1 := by
      apply murmur_hash_process_congr
      · have := v2.1; have := v2.2.1; simp only [murmur_buffer_length]; omega
      · have := v1.1; have := v1.2.1; simp only [murmur_buffer_length]; omega
      · rw [l1, l2]; simp [murmur_init, murmur_buffer_length]
      · rw [c1, c2, murmur_init_contents, murmur_init_contents]
    simp [hu2, Outcome.andThen, murmur_finish, lookup_set _ _ _ _ hl2, Outcome.val?, hh]

theorem incremental_equivalence_witness :
    ∃ d, ((update_all (fun _ => 0) (murmur_alloc (fun _ => 0) []).1 (murmur_alloc (fun _ => 0) []).2
              [[0x74, 0x65], [], [0x73, 0x74, 0x80]]).andThen
            (fun s v => murmur_finish true s v)).val? = some d
      ∧ ((murmur_update (fun _ => 1) (murmur_alloc (fun _ => 1) []).1 (murmur_alloc (fun _ => 1) []).2
            [[0x74, 0x65], [], [0x73, 0x74, 0x80]].flatten).andThen
            (fun s v => murmur_finish true s v)).val? = some d :=
  incremental_equivalence true (fun _ => 0) (fun _ => 1) [] [] [[0x74, 0x65], [], [0x73, 0x74, 0x80]]
    (by decide)

/-- C4: for every object with a valid struct and every sequence of `murmur_update`
calls (new length at most `2^63`), the calls return and the logical contents
afterwards are the previous contents followed by the appended byte sequences in
call order, whether or not a call makes the buffer grow; the object keeps its
frozen flag and no other object changes. -/
theorem murmur_update_appends (heap : Nat → Byte) (space : ObjectSpace) (self : VALUE)
    (obj : RData) (strs : List (List Byte)) (hobj : space[self]? = some obj)
    (hv : Valid obj.data)
    (hsize : murmur_buffer_length obj.data + strs.flatten.length ≤ 2 ^ 63) :
    ∃ space1 obj1, update_all heap space self strs = .ok space1 self
      ∧ space1[self]? = some obj1
      ∧ contents obj1.data = contents obj.data ++ strs.flatten
      ∧ murmur_buffer_length obj1.data = murmur_buffer_length obj.data + strs.flatten.length
      ∧ obj1.frozen = obj.frozen
      ∧ ∀ other, other ≠ self → space1[other]? = space[other]? := by
  obtain ⟨ptr1, hu, c1, l1, _, _⟩ := update_all_spec heap self strs space obj hobj hv hsize
  refine ⟨_, { obj with data := ptr1 }, hu, lookup_set space self obj _ hobj, c1, l1, rfl, ?_⟩
  intro other hne
  exact List.getElem?_set_ne (Ne.symm hne)

theorem murmur_update_appends_witness :
    Valid (murmur_init (fun _ => 0))
      ∧ ∃ space1 obj1,
        update_all (fun _ => 0) (murmur_alloc (fun _ => 0) []).1 0
            [List.replicate 60 1, List.replicate 10 2] = .ok space1 0
          ∧ space1[0]? = some obj1
          ∧ contents obj1.data
              = contents (murmur_init (fun _ => 0))
                ++ [List.replicate 60 1, List.replicate 10 2].flatten
          ∧ murmur_buffer_length obj1.data
              = murmur_buffer_length (murmur_init (fun _ => 0))
                + [List.replicate 60 (1 : Byte), List.replicate 10 2].flatten.length
          ∧ obj1.frozen = false
          ∧ ∀ other, other ≠ 0 → space1[other]? = (murmur_alloc (fun _ => 0) []).1[other]? :=
  ⟨by decide,
    murmur_update_appends (fun _ => 0) (murmur_alloc (fun _ => 0) []).1 0
      { frozen := false, data := murmur_init (fun _ => 0) }
      [List.replicate 60 1, List.replicate 10 2] rfl (by decide) (by decide)⟩

/-- C5: for every accumulator object, `murmur_finish` returns exactly 4 bytes, the
big-endian serialisation of the value `h` that `murmur_to_i` returns on the same
state: byte `i` is `(h >> (24 - 8*i)) mod 256`, and decoding the bytes as a
big-endian unsigned integer gives `h` back. -/
theorem murmur_finish_big_endian (signedChar : Bool) (space : ObjectSpace) (self : VALUE)
    (obj : RData) (hobj : space[self]? = some obj) :
    ∃ h d, murmur_to_i signedChar space self = .ok space h
      ∧ murmur_finish signedChar space self = .ok space d
      ∧ d.length = 4
      ∧ (∀ i, i < 4 → (d.getD i 0).val = (h >>> (24 - 8 * i)) % 256)
      ∧ decode_be d = h := by
  refine ⟨murmur_hash_process signedChar obj.data,
    digest_bytes (murmur_hash_process signedChar obj.data), ?_, ?_, rfl, ?_, ?_⟩
  · simp [murmur_to_i, hobj]
  · simp [murmur_finish, hobj]
  · intro i hi
    match i, hi with
    | 0, _ => rfl
    | 1, _ => rfl
    | 2, _ => rfl
    | 3, _ => rfl
  · have hlt := murmur_hash_process_lt signedChar obj.data
    simp only [decode_be, digest_bytes, to_u8, List.foldl_cons, List.foldl_nil,
      Nat.shiftRight_eq_div_pow]
    omega

theorem murmur_finish_big_endian_witness :
    ∃ h d, murmur_to_i true [⟨false, ⟨[0x74, 0x65, 0x73, 0x74, 0x80, 0], 5, 6⟩⟩] 0
          = .ok [⟨false, ⟨[0x74, 0x65, 0x73, 0x74, 0x80, 0], 5, 6⟩⟩] h
      ∧ murmur_finish true [⟨false, ⟨[0x74, 0x65, 0x73, 0x74, 0x80, 0], 5, 6⟩⟩] 0
          = .ok [⟨false, ⟨[0x74, 0x65, 0x73, 0x74, 0x80, 0], 5, 6⟩⟩] d
      ∧ d.length = 4
      ∧ (∀ i, i < 4 → (d.getD i 0).val = (h >>> (24 - 8 * i)) % 256)
      ∧ decode_be d = h :=
  murmur_finish_big_endian true [⟨false, ⟨[0x74, 0x65, 0x73, 0x74, 0x80, 0], 5, 6⟩⟩] 0
    ⟨false, ⟨[0x74, 0x65, 0x73, 0x74, 0x80, 0], 5, 6⟩⟩ rfl

/-- C6: finalising does not change the accumulator: `murmur_finish` and `murmur_to_i`
leave the whole object space (every buffer, logical length and capacity) as it
was, so a second `murmur_finish` returns what the first returned, and a
`murmur_update` after a `murmur_finish` behaves as the same `murmur_update` without it. -/
theorem murmur_finish_pure (signedChar : Bool) (heap : Nat → Byte) (space : ObjectSpace)
    (self : VALUE) (str : List Byte) :
    (murmur_finish signedChar space self).space? = some space
      ∧ (murmur_to_i signedChar space self).space? = some space
      ∧ (murmur_finish signedChar space self).andThen
          (fun s _ => murmur_finish signedChar s self) = murmur_finish signedChar space self
      ∧ (murmur_finish signedChar space self).andThen
          (fun s _ => murmur_update heap s self str) = murmur_update heap space self str
      ∧ (murmur_to_i signedChar space self).andThen
          (fun s _ => murmur_update heap s self str) = murmur_update heap space self str := by
  cases hobj : space[self]? with
  | none => simp [murmur_finish, murmur_to_i, murmur_update, hobj, Outcome.space?, Outcome.andThen]
  | some obj =>
    simp [murmur_finish, murmur_to_i, hobj, Outcome.space?, Outcome.andThen]

/-- C7 (reset clears state): from any object with a valid struct, `murmur_update(x)`,
`murmur_reset`, `murmur_update(y)` return and leave the contents equal to `y` exactly,
so `murmur_to_i` and `murmur_finish` return what they return on a freshly allocated
accumulator to which `y` alone was appended; `murmur_reset` itself sets the logical
length to 0 and keeps the block and the capacity. -/
theorem reset_clears_state (signedChar : Bool) (heap : Nat → Byte) (space : ObjectSpace)
    (self : VALUE) (obj : RData) (x y : List Byte) (hobj : space[self]? = some obj)
    (hv : Valid obj.data) (hx : murmur_buffer_length obj.data + x.length ≤ 2 ^ 63)
    (hy : y.length ≤ 2 ^ 63) :
    (∃ space1 obj1,
        (murmur_update heap space self x).andThen (fun s _ =>
          (murmur_reset s self).andThen (fun s _ => murmur_update heap s self y))
          = .ok space1 self
        ∧ space1[self]? = some obj1
        ∧ contents obj1.data = y
        ∧ murmur_buffer_length obj1.data = y.length
        ∧ ∀ (heap2 : Nat → Byte) (space2 : ObjectSpace),
            (murmur_to_i signedChar space1 self).val?
              = (murmur_s_rawdigest signedChar heap2 space2 [y]).val?
            ∧ (murmur_finish signedChar space1 self).val?
              = ((murmur_update heap2 (murmur_alloc heap2 space2).1 (murmur_alloc heap2 space2).2
                  y).andThen (fun s v => murmur_finish signedChar s v)).val?)
      ∧ ∃ space2 obj2, murmur_reset space self = .ok space2 self
        ∧ space2[self]? = some obj2
        ∧ murmur_buffer_length obj2.data = 0
        ∧ contents obj2.data = []
        ∧ obj2.data.memsize = obj.data.memsize
        ∧ obj2.data.buffer = obj.data.buffer := by
  constructor
  · obtain ⟨ptr1, hu1, _, _, v1, _⟩ := murmur_update_spec heap space self obj x hobj hv hx
    have hl1 := lookup_set space self obj { obj with data := ptr1 } hobj
    have hr := murmur_reset_spec _ self _ hl1
    have hl2 := lookup_set _ self _ { obj with data := { ptr1 with p := 0 } } hl1
    obtain ⟨ptr3, hu3, c3, l3, v3, _⟩ := murmur_update_spec heap _ self _ y hl2
      (reset_valid ptr1 v1) (by simpa [murmur_buffer_length] using hy)
    have hl3 := lookup_set _ self _ { obj with data := ptr3 } hl2
    have hc3 : contents ptr3 = y := by
      rw [c3]; simp [contents, murmur_buffer_length]
    refine ⟨_, { obj with data := ptr3 }, ?_, hl3, hc3, ?_, ?_⟩
    · rw [hu1]
      simp only [Outcome.andThen]
      rw [hr]
      simp only [Outcome.andThen]
      exact hu3
    · rw [l3]; simp [murmur_buffer_length]
    · intro heap2 space2
      obtain ⟨ptr4, hd, v4, c4, _⟩ := murmur_s_rawdigest_spec signedChar heap2 space2 y [] hy
      have hh : murmur_hash_process signedChar ptr3 = murmur_hash_process signedChar ptr4 :=
        hash_of_contents signedChar ptr3 ptr4 v3 v4 (by rw [hc3, c4])
      have ht := murmur_to_i_spec signedChar _ self _ hl3
      constructor
      · rw [ht.1, hd]
        simp [Outcome.val?, hh]
      · have hl := murmur_alloc_lookup heap2 space2
        obtain ⟨ptr5, hu5, c5, _, v5, _⟩ := murmur_update_spec heap2 _ _ _ y hl
          (murmur_init_valid heap2) (by simpa [murmur_init, murmur_buffer_length] using hy)
        have hh5 : murmur_hash_process signedChar ptr3 = murmur_hash_process signedChar ptr5 :=
          hash_of_contents signedChar ptr3 ptr5 v3 v5 (by
            rw [hc3, c5, murmur_init_contents]; rfl)
        rw [ht.2, hu5]
        simp only [Outcome.andThen]
        rw [(murmur_to_i_spec signedChar _ _ _ (lookup_set _ _ _ _ hl)).2]
        simp [Outcome.val?, hh5]
  · refine ⟨_, _, murmur_reset_spec space self obj hobj, lookup_set space self obj _ hobj,
      rfl, ?_, rfl, rfl⟩
    simp [contents, murmur_buffer_length]

theorem reset_clears_state_witness :
    (∃ space1 obj1,
        (murmur_update (fun _ => 0) [⟨false, ⟨[1, 2, 3, 4], 3, 4⟩⟩] 0 [5, 6]).andThen (fun s _ =>
          (murmur_reset s 0).andThen (fun s _ => murmur_update (fun _ => 0) s 0 [7, 0x80, 9]))
          = .ok space1 0
        ∧ space1[0]? = some obj1
        ∧ contents obj1.data = [7, 0x80, 9]
        ∧ murmur_buffer_length obj1.data = [7, 0x80, (9 : Byte)].length
        ∧ ∀ (heap2 : Nat → Byte) (space2 : ObjectSpace),
            (murmur_to_i true space1 0).val?
              = (murmur_s_rawdigest true heap2 space2 [[7, 0x80, 9]]).val?
            ∧ (murmur_finish true space1 0).val?
              = ((murmur_update heap2 (murmur_alloc heap2 space2).1 (murmur_alloc heap2 space2).2
                  [7, 0x80, 9]).andThen (fun s v => murmur_finish true s v)).val?)
      ∧ ∃ space2 obj2, murmur_reset [⟨false, ⟨[1, 2, 3, 4], 3, 4⟩⟩] 0 = .ok space2 0
        ∧ space2[0]? = some obj2
        ∧ murmur_buffer_length obj2.data = 0
        ∧ contents obj2.data = []
        ∧ obj2.data.memsize = 4
        ∧ obj2.data.buffer = [1, 2, 3, 4] :=
  reset_clears_state true (fun _ => 0) [⟨false, ⟨[1, 2, 3, 4], 3, 4⟩⟩] 0
    ⟨false, ⟨[1, 2, 3, 4], 3, 4⟩⟩ [5, 6] [7, 0x80, 9] rfl (by decide) (by decide) (by decide)

/-- C8 (counterexample): a frozen destination that holds the byte 9, asked to copy a
source that holds 1, 2: `murmur_initialize_copy` raises `FrozenError` at
`rb_check_frozen`, leaves the object space as it was, and so does not leave the
destination with the contents of the source. -/
theorem murmur_initialize_copy_rejects_frozen :
    murmur_initialize_copy (fun _ => 0)
        [⟨false, small_acc [1, 2]⟩, ⟨true, small_acc [9]⟩] 1 0
      = .raised .FrozenError [⟨false, small_acc [1, 2]⟩, ⟨true, small_acc [9]⟩]
    ∧ Valid (small_acc [1, 2]) ∧ Valid (small_acc [9])
    ∧ contents (small_acc [9]) ≠ contents (small_acc [1, 2])
    ∧ ¬ ∃ space1 c1, murmur_initialize_copy (fun _ => 0)
          [⟨false, small_acc [1, 2]⟩, ⟨true, small_acc [9]⟩] 1 0 = .ok space1 1
        ∧ space1[1]? = some c1 ∧ contents c1.data = contents (small_acc [1, 2]) := by
  have h : murmur_initialize_copy (fun _ => 0)
        [⟨false, small_acc [1, 2]⟩, ⟨true, small_acc [9]⟩] 1 0
      = .raised .FrozenError [⟨false, small_acc [1, 2]⟩, ⟨true, small_acc [9]⟩] := by
    decide
  refine ⟨h, by decide, by decide, by decide, ?_⟩
  rintro ⟨space1, c1, hok, _⟩
  rw [h] at hok
  cases hok

/-- C8 (amended): for every source object and every distinct destination object,
both with valid structs: if the destination is not frozen, `murmur_initialize_copy`
returns and leaves the destination's logical contents and length equal to the
source's at the time of the call (whatever the destination held and whichever
capacity is larger), the destination's capacity being the larger of the two, and it
leaves the source and every other object unchanged; if the destination is frozen
the call raises `FrozenError` and changes nothing. -/
theorem murmur_initialize_copy_copies (heap : Nat → Byte) (space : ObjectSpace)
    (copy origin : VALUE) (c o : RData) (hne : copy ≠ origin) (hc : space[copy]? = some c)
    (ho : space[origin]? = some o) (hvc : Valid c.data) (hvo : Valid o.data) :
    (c.frozen = false →
      ∃ space1 c1, murmur_initialize_copy heap space copy origin = .ok space1 copy
        ∧ space1[copy]? = some c1
        ∧ contents c1.data = contents o.data
        ∧ murmur_buffer_length c1.data = murmur_buffer_length o.data
        ∧ c1.data.memsize = max c.data.memsize o.data.memsize
        ∧ space1[origin]? = some o
        ∧ ∀ other, other ≠ copy → space1[other]? = space[other]?)
      ∧ (c.frozen = true →
          murmur_initialize_copy heap space copy origin = .raised .FrozenError space) := by
  constructor
  · intro hf
    obtain ⟨h1, h2, _, h4⟩ := murmur_initialize_copy_ptr_spec heap c.data o.data hvc hvo
    have hframe : ∀ other, other ≠ copy →
        (space.set copy { c with data := murmur_initialize_copy_ptr heap c.data o.data })[other]?
          = space[other]? := by
      intro other hother
      exact List.getElem?_set_ne (Ne.symm hother)
    refine ⟨_, _, murmur_initialize_copy_ok heap space copy origin c o hne hc ho hf,
      lookup_set space copy c _ hc, h1, h2, h4, ?_, hframe⟩
    rw [hframe origin (Ne.symm hne)]
    exact ho
  · intro hf
    exact murmur_initialize_copy_frozen heap space copy origin c hne hc hf

theorem murmur_initialize_copy_copies_witness :
    Valid (small_acc [9, 9, 9]) ∧ Valid (small_acc [1, 2])
      ∧ ∃ space1 c1, murmur_initialize_copy (fun _ => 0)
            [⟨false, small_acc [1, 2]⟩, ⟨false, small_acc [9, 9, 9]⟩] 1 0 = .ok space1 1
        ∧ space1[1]? = some c1
        ∧ contents c1.data = contents (small_acc [1, 2])
        ∧ murmur_buffer_length c1.data = murmur_buffer_length (small_acc [1, 2])
        ∧ c1.data.memsize = max (small_acc [9, 9, 9]).memsize (small_acc [1, 2]).memsize
        ∧ space1[0]? = some ⟨false, small_acc [1, 2]⟩
        ∧ ∀ other, other ≠ 1 →
            space1[other]? = [⟨false, small_acc [1, 2]⟩, ⟨false, small_acc [9, 9, 9]⟩][other]? :=
  ⟨by decide, by decide,
    (murmur_initialize_copy_copies (fun _ => 0)
      [⟨false, small_acc [1, 2]⟩, ⟨false, small_acc [9, 9, 9]⟩] 1 0
      ⟨false, small_acc [9, 9, 9]⟩ ⟨false, small_acc [1, 2]⟩ (by decide) rfl rfl
      (by decide) (by decide)).1 rfl⟩

/-- C9 (duplicate independence): let `a` hold `x`, let `b` be a distinct object that
`murmur_initialize_copy(b, a)` was called on and returned, both structs valid, and let
`z` be appended to `b` with `murmur_update` afterwards (`x ++ z` at most `2^63` bytes).
Then the update returns, `a` is unchanged and `murmur_to_i` on `a` is still the hash
of `x`, and `murmur_to_i` on `b` is the hash of `x ++ z`, the hash of a byte sequence
being what `murmur_hash_process` gives on any valid struct that holds it. -/
theorem duplicate_independence (signedChar : Bool) (heap : Nat → Byte)
    (space space1 : ObjectSpace) (a b : VALUE) (oa ob : RData) (x z : List Byte)
    (hne : b ≠ a) (ha : space[a]? = some oa) (hb : space[b]? = some ob)
    (hva : Valid oa.data) (hvb : Valid ob.data) (hx : contents oa.data = x)
    (hcopy : murmur_initialize_copy heap space b a = .ok space1 b)
    (hsize : x.length + z.length ≤ 2 ^ 63) :
    ∃ space2, murmur_update heap space1 b z = .ok space2 b
      ∧ space2[a]? = some oa
      ∧ (∀ ptr, Valid ptr → contents ptr = x →
          murmur_to_i signedChar space2 a = .ok space2 (murmur_hash_process signedChar ptr))
      ∧ (∀ ptr, Valid ptr → contents ptr = x ++ z →
          murmur_to_i signedChar space2 b = .ok space2 (murmur_hash_process signedChar ptr)) := by
  have hf : ob.frozen = false := by
    cases hfr : ob.frozen with
    | false => rfl
    | true =>
      rw [murmur_initialize_copy_frozen heap space b a ob hne hb hfr] at hcopy
      cases hcopy
  obtain ⟨c1, c2, c3, _⟩ := murmur_initialize_copy_ptr_spec heap ob.data oa.data hvb hva
  rw [murmur_initialize_copy_ok heap space b a ob oa hne hb ha hf] at hcopy
  injection hcopy with hs _
  subst hs
  have hl1 := lookup_set space b ob
    { ob with data := murmur_initialize_copy_ptr heap ob.data oa.data } hb
  have hxl : murmur_buffer_length oa.data = x.length := by
    rw [← valid_contents_length oa.data hva, hx]
  obtain ⟨ptr2, hu, d1, _, d3, _⟩ := murmur_update_spec heap _ b _ z hl1 c3
    (by simp only [c2, hxl]; exact hsize)
  have hl2 := lookup_set _ b _
    { ob with data := ptr2 } hl1
  have hla : ((space.set b { ob with data := murmur_initialize_copy_ptr heap ob.data oa.data }).set b
      { ob with data := ptr2 })[a]? = some oa := by
    rw [List.getElem?_set_ne hne, List.getElem?_set_ne hne]
    exact ha
  refine ⟨_, hu, hla, ?_, ?_⟩
  · intro ptr hv hc
    rw [(murmur_to_i_spec signedChar _ a oa hla).1,
      hash_of_contents signedChar oa.data ptr hva hv (by rw [hx, hc])]
  · intro ptr hv hc
    rw [(murmur_to_i_spec signedChar _ b _ hl2).1]
    simp only
    rw [hash_of_contents signedChar ptr2 ptr d3 hv (by rw [d1, c1, hx, hc])]

theorem duplicate_independence_witness :
    Valid (small_acc [1, 2]) ∧ Valid (murmur_init (fun _ => 0))
      ∧ ∃ space2, murmur_update (fun _ => 0)
            [⟨false, small_acc [1, 2]⟩, ⟨false, small_acc [1, 2]⟩] 1 [0x80] = .ok space2 1
        ∧ space2[0]? = some ⟨false, small_acc [1, 2]⟩
        ∧ (∀ ptr, Valid ptr → contents ptr = [1, 2] →
            murmur_to_i true space2 0 = .ok space2 (murmur_hash_process true ptr))
        ∧ (∀ ptr, Valid ptr → contents ptr = [1, 2] ++ [0x80] →
            murmur_to_i true space2 1 = .ok space2 (murmur_hash_process true ptr)) :=
  ⟨by decide, by decide,
    duplicate_independence true (fun _ => 0)
      [⟨false, small_acc [1, 2]⟩, ⟨false, murmur_init (fun _ => 0)⟩]
      [⟨false, small_acc [1, 2]⟩, ⟨false, small_acc [1, 2]⟩] 0 1
      ⟨false, small_acc [1, 2]⟩ ⟨false, murmur_init (fun _ => 0)⟩ [1, 2] [0x80]
      (by decide) rfl rfl (by decide) (by decide) (by decide) (by decide) (by decide)⟩

/-- C10: `murmur_s_rawdigest` raises exactly when it is called with zero arguments,
the exception is `ArgumentError`, and the object space is then as before (no
accumulator made or changed); called with a byte sequence `s` of at most `2^63`
bytes (the empty one included) it returns the 32-bit value that allocating a fresh
accumulator, one `murmur_update` with `s` and `murmur_to_i` return, so for the empty
string it returns the documented hash of the empty input. -/
theorem murmur_s_rawdigest_contract (signedChar : Bool) (heap : Nat → Byte)
    (space : ObjectSpace) :
    murmur_s_rawdigest signedChar heap space [] = .raised .ArgumentError space
      ∧ (∀ argv, (∃ e s, murmur_s_rawdigest signedChar heap space argv = .raised e s)
          ↔ argv = [])
      ∧ (∀ (s : List Byte) (rest : List (List Byte)), s.length ≤ 2 ^ 63 →
          ∃ space1 h, murmur_s_rawdigest signedChar heap space (s :: rest) = .ok space1 h
            ∧ h < 2 ^ 32
            ∧ (murmur_update heap (murmur_alloc heap space).1 (murmur_alloc heap space).2
                s).andThen (fun sp v => murmur_to_i signedChar sp v) = .ok space1 h)
      ∧ (murmur_s_rawdigest signedChar heap space [[]]).val? = some (spec_mix []) := by
  refine ⟨rfl, ?_, ?_, ?_⟩
  · intro argv
    constructor
    · rintro ⟨e, s, h⟩
      cases argv with
      | nil => rfl
      | cons str rest =>
        exfalso
        have hl := murmur_alloc_lookup heap space
        simp only [murmur_s_rawdigest, murmur_update, hl] at h
        cases hu : murmur_update_ptr heap (murmur_init heap) str with
        | none => simp [hu, Outcome.andThen] at h
        | some ptr =>
          simp [hu, Outcome.andThen, murmur_to_i, lookup_set _ _ _ _ hl] at h
    · rintro rfl
      exact ⟨_, _, rfl⟩
  · intro s rest hs
    obtain ⟨ptr, hd, _, _, _⟩ := murmur_s_rawdigest_spec signedChar heap space s rest hs
    refine ⟨_, _, hd, murmur_hash_process_lt signedChar ptr, ?_⟩
    have hl := murmur_alloc_lookup heap space
    obtain ⟨ptr1, hu, _⟩ := murmur_update_spec heap _ _ _ s hl
      (murmur_init_valid heap) (by simpa [murmur_init, murmur_buffer_length] using hs)
    have hd2 : murmur_s_rawdigest signedChar heap space (s :: rest)
        = (murmur_update heap (murmur_alloc heap space).1 (murmur_alloc heap space).2
            s).andThen (fun sp _ => murmur_to_i signedChar sp (murmur_alloc heap space).2) := rfl
    rw [← hd, hd2, hu]
    rfl
  · obtain ⟨ptr, hd, hv, hc, hl⟩ := murmur_s_rawdigest_spec signedChar heap space [] []
      (by decide)
    rw [hd]
    simp only [Outcome.val?]
    rw [murmur_hash_process_eq_spec_mix signedChar ptr (valid_le_buffer ptr hv)
      (by rw [hl]; decide) (Or.inr (by intro i hi; rw [hl] at hi; simp at hi)), hc]

theorem murmur_s_rawdigest_contract_witness :
    [(0x74 : Byte), 0x80].length ≤ 2 ^ 63
      ∧ ∃ space1 h, murmur_s_rawdigest true (fun _ => 0) [] ([0x74, 0x80] :: []) = .ok space1 h
        ∧ h < 2 ^ 32
        ∧ (murmur_update (fun _ => 0) (murmur_alloc (fun _ => 0) []).1
              (murmur_alloc (fun _ => 0) []).2 [0x74, 0x80]).andThen
            (fun sp v => murmur_to_i true sp v) = .ok space1 h :=
  ⟨by decide, (murmur_s_rawdigest_contract true (fun _ => 0) []).2.2.1 [0x74, 0x80] [] (by decide)⟩

/-! ## Observable behaviour and capacity -/

/-- C11 (capacity is not observable): for any two accumulator objects whose logical
contents are equal, whatever their capacities and the bytes stored beyond the
logical length, `murmur_to_i` returns the same value, `murmur_finish` the same
bytes, and the logical lengths are equal; the hash reads only the bytes below the
logical length, so it is the hash of the contents followed by any other bytes
under any capacity. -/
theorem capacity_not_observable (signedChar : Bool) (space1 space2 : ObjectSpace)
    (v1 v2 : VALUE) (o1 o2 : RData) (h1 : space1[v1]? = some o1) (h2 : space2[v2]? = some o2)
    (hp1 : murmur_buffer_length o1.data ≤ o1.data.buffer.length)
    (hp2 : murmur_buffer_length o2.data ≤ o2.data.buffer.length)
    (hc : contents o1.data = contents o2.data) :
    ∃ h d, murmur_to_i signedChar space1 v1 = .ok space1 h
      ∧ murmur_to_i signedChar space2 v2 = .ok space2 h
      ∧ murmur_finish signedChar space1 v1 = .ok space1 d
      ∧ murmur_finish signedChar space2 v2 = .ok space2 d
      ∧ murmur_buffer_length o1.data = murmur_buffer_length o2.data
      ∧ ∀ (beyond : List Byte) (cap : Nat),
          murmur_hash_process signedChar
            { buffer := contents o1.data ++ beyond, p := murmur_buffer_length o1.data,
              memsize := cap } = h := by
  have hl1 : (contents o1.data).length = murmur_buffer_length o1.data := by
    simp [contents]; exact hp1
  have hl2 : (contents o2.data).length = murmur_buffer_length o2.data := by
    simp [contents]; exact hp2
  have hlen : murmur_buffer_length o1.data = murmur_buffer_length o2.data := by
    rw [← hl1, ← hl2, hc]
  have hh : murmur_hash_process signedChar o2.data = murmur_hash_process signedChar o1.data :=
    murmur_hash_process_congr signedChar o2.data o1.data hp2 hp1 hlen.symm hc.symm
  refine ⟨murmur_hash_process signedChar o1.data,
    digest_bytes (murmur_hash_process signedChar o1.data),
    (murmur_to_i_spec signedChar space1 v1 o1 h1).1, ?_,
    (murmur_to_i_spec signedChar space1 v1 o1 h1).2, ?_, hlen, ?_⟩
  · rw [(murmur_to_i_spec signedChar space2 v2 o2 h2).1, hh]
  · rw [(murmur_to_i_spec signedChar space2 v2 o2 h2).2, hh]
  · intro beyond cap
    have hb : murmur_buffer_length
        ({ buffer := contents o1.data ++ beyond, p := murmur_buffer_length o1.data,
           memsize := cap } : murmur_t) = murmur_buffer_length o1.data := rfl
    have hle : murmur_buffer_length o1.data ≤ (contents o1.data ++ beyond).length := by
      rw [List.length_append, hl1]
      exact Nat.le_add_right _ _
    have hcb : contents
        ({ buffer := contents o1.data ++ beyond, p := murmur_buffer_length o1.data,
           memsize := cap } : murmur_t) = contents o1.data := by
      show (contents o1.data ++ beyond).take (murmur_buffer_length o1.data) = contents o1.data
      rw [List.take_append_of_le_length (Nat.le_of_eq hl1.symm)]
      exact List.take_of_length_le (Nat.le_of_eq hl1)
    exact murmur_hash_process_congr signedChar _ o1.data hle hp1 hb hcb

theorem capacity_not_observable_witness :
    ∃ h d, murmur_to_i true [⟨false, small_acc [1, 2, 0x80]⟩] 0
          = .ok [⟨false, small_acc [1, 2, 0x80]⟩] h
      ∧ murmur_to_i true [⟨true, ⟨[1, 2, 0x80] ++ List.replicate 125 7, 3, 128⟩⟩] 0
          = .ok [⟨true, ⟨[1, 2, 0x80] ++ List.replicate 125 7, 3, 128⟩⟩] h
      ∧ murmur_finish true [⟨false, small_acc [1, 2, 0x80]⟩] 0
          = .ok [⟨false, small_acc [1, 2, 0x80]⟩] d
      ∧ murmur_finish true [⟨true, ⟨[1, 2, 0x80] ++ List.replicate 125 7, 3, 128⟩⟩] 0
          = .ok [⟨true, ⟨[1, 2, 0x80] ++ List.replicate 125 7, 3, 128⟩⟩] d
      ∧ murmur_buffer_length (small_acc [1, 2, 0x80]) = murmur_buffer_length
          (⟨[1, 2, 0x80] ++ List.replicate 125 7, 3, 128⟩ : murmur_t)
      ∧ ∀ (beyond : List Byte) (cap : Nat),
          murmur_hash_process true
            { buffer := contents (small_acc [1, 2, 0x80]) ++ beyond,
              p := murmur_buffer_length (small_acc [1, 2, 0x80]), memsize := cap } = h :=
  capacity_not_observable true [⟨false, small_acc [1, 2, 0x80]⟩]
    [⟨true, ⟨[1, 2, 0x80] ++ List.replicate 125 7, 3, 128⟩⟩] 0 0
    ⟨false, small_acc [1, 2, 0x80]⟩ ⟨true, ⟨[1, 2, 0x80] ++ List.replicate 125 7, 3, 128⟩⟩
    rfl rfl (by decide) (by simp [murmur_buffer_length])
    (by simp [contents, small_acc, murmur_buffer_length])

/-- C12 (empty input): on a freshly allocated accumulator, and on any accumulator
just after `murmur_reset`, `murmur_to_i` returns 0 and `murmur_finish` returns the
bytes 00 00 00 00; 0 is the avalanche of `h = 0`, the documented hash of the empty
input. -/
theorem empty_input_hash (signedChar : Bool) (heap : Nat → Byte) (space : ObjectSpace)
    (self : VALUE) (obj : RData) (hobj : space[self]? = some obj) :
    murmur_to_i signedChar (murmur_alloc heap space).1 (murmur_alloc heap space).2
        = .ok (murmur_alloc heap space).1 0
      ∧ murmur_finish signedChar (murmur_alloc heap space).1 (murmur_alloc heap space).2
        = .ok (murmur_alloc heap space).1 [0, 0, 0, 0]
      ∧ (∃ space1, murmur_reset space self = .ok space1 self
          ∧ murmur_to_i signedChar space1 self = .ok space1 0
          ∧ murmur_finish signedChar space1 self = .ok space1 [0, 0, 0, 0])
      ∧ spec_avalanche 0 = 0 ∧ spec_mix [] = spec_avalanche 0 := by
  have hz : digest_bytes 0 = [0, 0, 0, 0] := by decide
  have hl := murmur_alloc_lookup heap space
  have ha := murmur_to_i_spec signedChar _ _ _ hl
  have hinit : murmur_hash_process signedChar (murmur_init heap) = 0 :=
    murmur_hash_process_empty signedChar _ rfl
  have hl2 := lookup_set space self obj { obj with data := { obj.data with p := 0 } } hobj
  have hr := murmur_to_i_spec signedChar _ self _ hl2
  have hreset : murmur_hash_process signedChar { obj.data with p := 0 } = 0 :=
    murmur_hash_process_empty signedChar _ rfl
  refine ⟨?_, ?_, ⟨_, murmur_reset_spec space self obj hobj, ?_, ?_⟩, by decide, by decide⟩
  · rw [ha.1, hinit]
  · rw [ha.2, hinit, hz]
  · rw [hr.1, hreset]
  · rw [hr.2, hreset, hz]

theorem empty_input_hash_witness :
    murmur_to_i true (murmur_alloc (fun _ => 5) [⟨false, small_acc [1, 2, 0x80]⟩]).1
          (murmur_alloc (fun _ => 5) [⟨false, small_acc [1, 2, 0x80]⟩]).2
        = .ok (murmur_alloc (fun _ => 5) [⟨false, small_acc [1, 2, 0x80]⟩]).1 0
      ∧ murmur_finish true (murmur_alloc (fun _ => 5) [⟨false, small_acc [1, 2, 0x80]⟩]).1
          (murmur_alloc (fun _ => 5) [⟨false, small_acc [1, 2, 0x80]⟩]).2
        = .ok (murmur_alloc (fun _ => 5) [⟨false, small_acc [1, 2, 0x80]⟩]).1 [0, 0, 0, 0]
      ∧ (∃ space1, murmur_reset [⟨false, small_acc [1, 2, 0x80]⟩] 0 = .ok space1 0
          ∧ murmur_to_i true space1 0 = .ok space1 0
          ∧ murmur_finish true space1 0 = .ok space1 [0, 0, 0, 0])
      ∧ spec_avalanche 0 = 0 ∧ spec_mix [] = spec_avalanche 0 :=
  empty_input_hash true (fun _ => 5) [⟨false, small_acc [1, 2, 0x80]⟩] 0
    ⟨false, small_acc [1, 2, 0x80]⟩ rfl

/-- C13: for every accumulator object, `murmur_digest_length` and `murmur_block_length`
both return 4, whatever the contents, and leave the object space as it was; the
byte string `murmur_finish` returns has exactly `murmur_digest_length` bytes. -/
theorem digest_and_block_length (signedChar : Bool) (space : ObjectSpace) (self : VALUE) :
    murmur_digest_length space self = .ok space 4
      ∧ murmur_block_length space self = .ok space 4
      ∧ ∀ obj, space[self]? = some obj →
          ∃ d, murmur_finish signedChar space self = .ok space d
            ∧ murmur_digest_length space self = .ok space d.length := by
  refine ⟨rfl, rfl, ?_⟩
  intro obj hobj
  exact ⟨_, (murmur_to_i_spec signedChar space self obj hobj).2, rfl⟩

theorem digest_and_block_length_witness :
    ∃ d, murmur_finish true [⟨false, small_acc [1, 2, 0x80]⟩] 0
          = .ok [⟨false, small_acc [1, 2, 0x80]⟩] d
      ∧ murmur_digest_length [⟨false, small_acc [1, 2, 0x80]⟩] 0
          = .ok [⟨false, small_acc [1, 2, 0x80]⟩] d.length :=
  (digest_and_block_length true [⟨false, small_acc [1, 2, 0x80]⟩] 0).2.2
    ⟨false, small_acc [1, 2, 0x80]⟩ rfl

/-- C14 (growth policy of `murmur_update`): with `c ≥ 1` the capacity before the call
and `n` the old logical length plus the appended length (at most `2^63`), the call
returns; if `n ≤ c` the capacity is unchanged; otherwise the new capacity is
`c * 2^k` for the least `k ≥ 1` with `c * 2^k ≥ n`, so it is at least `n` and below
`2 * n`; the capacity never decreases. -/
theorem murmur_update_growth_policy (heap : Nat → Byte) (space : ObjectSpace) (self : VALUE)
    (obj : RData) (str : List Byte) (hobj : space[self]? = some obj)
    (hm : 1 ≤ obj.data.memsize)
    (hsize : murmur_buffer_length obj.data + str.length ≤ 2 ^ 63) :
    ∃ space1 obj1, murmur_update heap space self str = .ok space1 self
      ∧ space1[self]? = some obj1
      ∧ (murmur_buffer_length obj.data + str.length ≤ obj.data.memsize →
          obj1.data.memsize = obj.data.memsize)
      ∧ (obj.data.memsize < murmur_buffer_length obj.data + str.length →
          ∃ k, 1 ≤ k ∧ obj1.data.memsize = obj.data.memsize * 2 ^ k
            ∧ murmur_buffer_length obj.data + str.length ≤ obj.data.memsize * 2 ^ k
            ∧ (∀ j, 1 ≤ j → murmur_buffer_length obj.data + str.length ≤ obj.data.memsize * 2 ^ j →
                k ≤ j)
            ∧ murmur_buffer_length obj.data + str.length ≤ obj1.data.memsize
            ∧ obj1.data.memsize < 2 * (murmur_buffer_length obj.data + str.length))
      ∧ obj.data.memsize ≤ obj1.data.memsize := by
  obtain ⟨ptr1, k, hu, _, h2, h3, h4⟩ := murmur_update_shape heap space self obj str hobj hm hsize
  refine ⟨_, { obj with data := ptr1 }, hu, lookup_set space self obj _ hobj, ?_, ?_, ?_⟩
  · intro hle
    show ptr1.memsize = obj.data.memsize
    cases k with
    | zero => simpa using h2
    | succ k =>
      have := h4 0 (by omega)
      simp at this
      omega
  · intro hlt
    show ∃ k, 1 ≤ k ∧ ptr1.memsize = obj.data.memsize * 2 ^ k ∧ _ ∧ _ ∧ _ ≤ ptr1.memsize
      ∧ ptr1.memsize < _
    cases k with
    | zero =>
      simp at h3
      omega
    | succ k =>
      refine ⟨k + 1, by omega, h2, h3, ?_, by rw [h2]; exact h3, ?_⟩
      · intro j _ hj
        by_contra hlt2
        have := h4 j (by omega)
        omega
      · have := h4 k (by omega)
        rw [h2, Nat.pow_succ, ← Nat.mul_assoc]
        omega
  · show obj.data.memsize ≤ ptr1.memsize
    rw [h2]
    exact Nat.le_mul_of_pos_right _ (Nat.two_pow_pos k)

theorem murmur_update_growth_policy_witness :
    ∃ space1 obj1, murmur_update (fun _ => 0) [⟨false, small_acc [1, 2, 3]⟩] 0
          (List.replicate 70 9) = .ok space1 0
      ∧ space1[0]? = some obj1
      ∧ (murmur_buffer_length (small_acc [1, 2, 3]) + (List.replicate 70 (9 : Byte)).length
            ≤ (small_acc [1, 2, 3]).memsize →
          obj1.data.memsize = (small_acc [1, 2, 3]).memsize)
      ∧ ((small_acc [1, 2, 3]).memsize
            < murmur_buffer_length (small_acc [1, 2, 3]) + (List.replicate 70 (9 : Byte)).length →
          ∃ k, 1 ≤ k ∧ obj1.data.memsize = (small_acc [1, 2, 3]).memsize * 2 ^ k
            ∧ murmur_buffer_length (small_acc [1, 2, 3]) + (List.replicate 70 (9 : Byte)).length
                ≤ (small_acc [1, 2, 3]).memsize * 2 ^ k
            ∧ (∀ j, 1 ≤ j →
                murmur_buffer_length (small_acc [1, 2, 3])
                    + (List.replicate 70 (9 : Byte)).length
                  ≤ (small_acc [1, 2, 3]).memsize * 2 ^ j → k ≤ j)
            ∧ murmur_buffer_length (small_acc [1, 2, 3]) + (List.replicate 70 (9 : Byte)).length
                ≤ obj1.data.memsize
            ∧ obj1.data.memsize
                < 2 * (murmur_buffer_length (small_acc [1, 2, 3])
                    + (List.replicate 70 (9 : Byte)).length))
      ∧ (small_acc [1, 2, 3]).memsize ≤ obj1.data.memsize :=
  murmur_update_growth_policy (fun _ => 0) [⟨false, small_acc [1, 2, 3]⟩] 0
    ⟨false, small_acc [1, 2, 3]⟩ (List.replicate 70 9) rfl (by decide)
    (by simp [murmur_buffer_length, small_acc])

/-- C15: every operation preserves the accumulator invariant "logical length ≤
capacity and capacity = `64 * 2^j`": it holds after `murmur_init` (length 0, capacity
64) and so for the object `murmur_alloc` adds; if it holds of every object it still
holds of every object after `murmur_update` (new length at most `2^63`, which is
then within the new capacity), after `murmur_reset` and after `murmur_initialize_copy`,
where the destination's capacity becomes the larger of its own and the source's,
at least the copied length. -/
theorem invariant_preserved (heap : Nat → Byte) (space : ObjectSpace)
    (hinv : SpaceInv space) :
    (Inv (murmur_init heap) ∧ murmur_buffer_length (murmur_init heap) = 0
        ∧ (murmur_init heap).memsize = 64)
      ∧ SpaceInv (murmur_alloc heap space).1
      ∧ (∀ self obj str, space[self]? = some obj →
          murmur_buffer_length obj.data + str.length ≤ 2 ^ 63 →
          ∃ space1 obj1, murmur_update heap space self str = .ok space1 self
            ∧ SpaceInv space1 ∧ space1[self]? = some obj1
            ∧ murmur_buffer_length obj1.data = murmur_buffer_length obj.data + str.length
            ∧ murmur_buffer_length obj.data + str.length ≤ obj1.data.memsize)
      ∧ (∀ self, ∃ space1, (murmur_reset space self).space? = some space1 ∧ SpaceInv space1)
      ∧ (∀ copy origin, ∃ space1,
          (murmur_initialize_copy heap space copy origin).space? = some space1
            ∧ SpaceInv space1)
      ∧ (∀ copy origin c o, copy ≠ origin → space[copy]? = some c → space[origin]? = some o →
          c.frozen = false →
          ∃ space1 c1, murmur_initialize_copy heap space copy origin = .ok space1 copy
            ∧ SpaceInv space1 ∧ space1[copy]? = some c1
            ∧ c1.data.memsize = max c.data.memsize o.data.memsize
            ∧ murmur_buffer_length c1.data = murmur_buffer_length o.data
            ∧ murmur_buffer_length o.data ≤ c1.data.memsize) := by
  refine ⟨⟨inv_init heap, rfl, rfl⟩, ?_, ?_, ?_, ?_, ?_⟩
  · intro obj hmem
    simp only [murmur_alloc, List.mem_append, List.mem_singleton] at hmem
    rcases hmem with hin | heq
    · exact hinv obj hin
    · rw [heq]; exact inv_init heap
  · intro self obj str hobj hsize
    obtain ⟨ptr1, hu, hi, hl⟩ :=
      inv_update heap obj.data str (spaceInv_lookup space self obj hinv hobj) hsize
    refine ⟨_, { obj with data := ptr1 }, by simp [murmur_update, hobj, hu],
      spaceInv_set space self _ hinv hi, lookup_set space self obj _ hobj, hl, ?_⟩
    show murmur_buffer_length obj.data + str.length ≤ ptr1.memsize
    rw [← hl]
    exact hi.1
  · intro self
    cases hobj : space[self]? with
    | none => exact ⟨space, by simp [murmur_reset, hobj, Outcome.space?], hinv⟩
    | some obj =>
      refine ⟨space.set self { obj with data := { obj.data with p := 0 } }, ?_,
        spaceInv_set space self { obj with data := { obj.data with p := 0 } } hinv
          (inv_reset obj.data (spaceInv_lookup space self obj hinv hobj))⟩
      rw [murmur_reset_spec space self obj hobj]
      rfl
  · intro copy origin
    by_cases heq : copy = origin
    · exact ⟨space, by simp [murmur_initialize_copy, heq, Outcome.space?], hinv⟩
    · cases hc : space[copy]? with
      | none => exact ⟨space, by simp [murmur_initialize_copy, heq, hc, Outcome.space?], hinv⟩
      | some c =>
        cases hf : c.frozen with
        | true =>
          exact ⟨space, by simp [murmur_initialize_copy, heq, hc, hf, Outcome.space?], hinv⟩
        | false =>
          cases ho : space[origin]? with
          | none =>
            exact ⟨space, by simp [murmur_initialize_copy, heq, hc, hf, ho, Outcome.space?],
              hinv⟩
          | some o =>
            refine ⟨space.set copy
                { c with data := murmur_initialize_copy_ptr heap c.data o.data }, ?_,
              spaceInv_set space copy
                { c with data := murmur_initialize_copy_ptr heap c.data o.data } hinv
                (inv_copy heap c.data o.data (spaceInv_lookup space copy c hinv hc)
                  (spaceInv_lookup space origin o hinv ho)).1⟩
            rw [murmur_initialize_copy_ok heap space copy origin c o heq hc ho hf]
            rfl
  · intro copy origin c o hne hc ho hf
    obtain ⟨h1, h2, h3, h4⟩ := inv_copy heap c.data o.data
      (spaceInv_lookup space copy c hinv hc) (spaceInv_lookup space origin o hinv ho)
    exact ⟨_, _, murmur_initialize_copy_ok heap space copy origin c o hne hc ho hf,
      spaceInv_set space copy _ hinv h1, lookup_set space copy c _ hc, h2, h3, h4⟩

theorem invariant_preserved_witness :
    SpaceInv [⟨false, small_acc [1, 2]⟩, ⟨true, murmur_init (fun _ => 0)⟩]
      ∧ SpaceInv (murmur_alloc (fun _ => 0)
          [⟨false, small_acc [1, 2]⟩, ⟨true, murmur_init (fun _ => 0)⟩]).1
      ∧ ∃ space1, (murmur_reset
            [⟨false, small_acc [1, 2]⟩, ⟨true, murmur_init (fun _ => 0)⟩] 0).space? = some space1
          ∧ SpaceInv space1 :=
  have hinv : SpaceInv [⟨false, small_acc [1, 2]⟩, ⟨true, murmur_init (fun _ => 0)⟩] := by
    intro obj hmem
    simp only [List.mem_cons, List.mem_singleton, List.not_mem_nil, or_false] at hmem
    rcases hmem with rfl | rfl <;> exact ⟨by decide, 0, rfl⟩
  ⟨hinv,
    (invariant_preserved (fun _ => 0)
      [⟨false, small_acc [1, 2]⟩, ⟨true, murmur_init (fun _ => 0)⟩] hinv).2.1,
    (invariant_preserved (fun _ => 0)
      [⟨false, small_acc [1, 2]⟩, ⟨true, murmur_init (fun _ => 0)⟩] hinv).2.2.2.1 0⟩

/-- C16: `murmur_hash_process` keeps the buffer length in a 32-bit variable, so for a
byte sequence `b` of any length the hash of an accumulator holding `b` equals the
hash of an accumulator holding the prefix of `b` of length `length(b) mod 2^32`;
the hash depends only on that prefix, so any other sequence with the same length
modulo `2^32` and the same prefix hashes alike, and for lengths below `2^32` the
prefix is all of `b`. -/
theorem length_truncated_to_32_bits (signedChar : Bool) (ptr ptr2 : murmur_t) (b : List Byte)
    (h1 : murmur_buffer_length ptr = b.length) (hc1 : contents ptr = b)
    (h2 : murmur_buffer_length ptr2 = b.length % 2 ^ 32)
    (hc2 : contents ptr2 = b.take (b.length % 2 ^ 32)) :
    murmur_hash_process signedChar ptr = murmur_hash_process signedChar ptr2
      ∧ (∀ (ptr3 : murmur_t) (b3 : List Byte), murmur_buffer_length ptr3 = b3.length →
          contents ptr3 = b3 → b3.length % 2 ^ 32 = b.length % 2 ^ 32 →
          b3.take (b.length % 2 ^ 32) = b.take (b.length % 2 ^ 32) →
          murmur_hash_process signedChar ptr3 = murmur_hash_process signedChar ptr)
      ∧ (b.length < 2 ^ 32 → b.take (b.length % 2 ^ 32) = b) := by
  have hM : UINT32_MOD = 2 ^ 32 := by decide
  have hle : b.length % 2 ^ 32 ≤ b.length := Nat.mod_le _ _
  have key : ∀ (q : murmur_t) (c : List Byte), murmur_buffer_length q = c.length →
      contents q = c → c.length % 2 ^ 32 = b.length % 2 ^ 32 →
      c.take (b.length % 2 ^ 32) = b.take (b.length % 2 ^ 32) →
      murmur_hash_process signedChar q
        = final_mix (tail_switch signedChar
            (spec_words ((b.length % 2 ^ 32 * MURMURHASH_MAGIC) % UINT32_MOD)
              (b.take (b.length % 2 ^ 32))).2
            (b.length % 2 ^ 32 % 4)
            (spec_words ((b.length % 2 ^ 32 * MURMURHASH_MAGIC) % UINT32_MOD)
              (b.take (b.length % 2 ^ 32))).1) := by
    intro q c hq hcq hmod htake
    have hp : murmur_buffer_length q ≤ q.buffer.length := by
      have : (contents q).length = c.length := by rw [hcq]
      simp [contents] at this
      omega
    rw [murmur_hash_process_eq signedChar q hp, hq, hcq, hM, hmod, htake]
  have e1 := key ptr b h1 hc1 rfl rfl
  have hlen2 : (b.take (b.length % 2 ^ 32)).length = b.length % 2 ^ 32 := by
    rw [List.length_take]
    exact Nat.min_eq_left hle
  have e2 := key ptr2 (b.take (b.length % 2 ^ 32)) (by rw [h2, hlen2])
    hc2 (by rw [hlen2, Nat.mod_mod]) (by rw [List.take_take, Nat.min_self])
  refine ⟨by rw [e1, e2], ?_, ?_⟩
  · intro ptr3 b3 h3 hc3 hmod htake
    rw [key ptr3 b3 h3 hc3 hmod htake, e1]
  · intro hlt
    rw [Nat.mod_eq_of_lt hlt]
    exact List.take_length b

theorem length_truncated_to_32_bits_witness :
    murmur_hash_process true ⟨List.replicate 4294967301 1, 4294967301, 8589934592⟩
      = murmur_hash_process true (small_acc [1, 1, 1, 1, 1]) :=
  (length_truncated_to_32_bits true ⟨List.replicate 4294967301 1, 4294967301, 8589934592⟩
    (small_acc [1, 1, 1, 1, 1]) (List.replicate 4294967301 1)
    (by simp only [murmur_buffer_length, List.length_replicate])
    (by simp only [contents, murmur_buffer_length, List.take_replicate, Nat.min_self])
    (by simp only [List.length_replicate]; decide)
    (by simp only [List.length_replicate, List.take_replicate]; decide)).1

/-- C17: the doubling loop of `murmur_update` terminates: for every accumulator of
capacity `c` with `1 ≤ c < 2^64` and every appended chunk with old length plus chunk
length `n` at most `2^63`, the loop `while (newsize < require) newsize *= 2`,
computed modulo `2^64`, exits after `k ≤ 63` doublings with `newsize = c * 2^k`, a
value below `2^64` that has not wrapped around, and `murmur_update` returns. -/
theorem doubling_loop_terminates (heap : Nat → Byte) (space : ObjectSpace) (self : VALUE)
    (obj : RData) (str : List Byte) (hobj : space[self]? = some obj)
    (hcap : 1 ≤ obj.data.memsize) (hfit : obj.data.memsize < SIZE_MOD)
    (hsize : murmur_buffer_length obj.data + str.length ≤ 2 ^ 63) :
    ∃ k, k ≤ 63
      ∧ (∀ fuel, k < fuel →
          grow_loop fuel obj.data.memsize (murmur_buffer_length obj.data + str.length)
            = some (obj.data.memsize * 2 ^ k))
      ∧ obj.data.memsize * 2 ^ k < SIZE_MOD
      ∧ murmur_buffer_length obj.data + str.length ≤ obj.data.memsize * 2 ^ k
      ∧ (∀ j, j < k → obj.data.memsize * 2 ^ j < murmur_buffer_length obj.data + str.length)
      ∧ ∃ space1, murmur_update heap space self str = .ok space1 self := by
  obtain ⟨k, hk, _, h1, h2⟩ := grow_loop_least (murmur_buffer_length obj.data + str.length)
    hsize 63 obj.data.memsize hcap (by
      calc murmur_buffer_length obj.data + str.length ≤ 2 ^ 63 := hsize
        _ = 1 * 2 ^ 63 := by norm_num
        _ ≤ obj.data.memsize * 2 ^ 63 := Nat.mul_le_mul_right _ hcap)
  have hnowrap : obj.data.memsize * 2 ^ k < SIZE_MOD := by
    cases k with
    | zero => simpa using hfit
    | succ m =>
      have := h2 m (by omega)
      rw [Nat.pow_succ, ← Nat.mul_assoc]
      unfold SIZE_MOD
      omega
  have hstep := grow_loop_steps (murmur_buffer_length obj.data + str.length) k
    obj.data.memsize h2 h1 hnowrap
  obtain ⟨ptr1, _, hu, _⟩ := murmur_update_shape heap space self obj str hobj hcap hsize
  refine ⟨k, hk, ?_, hnowrap, h1, h2, _, hu⟩
  intro fuel hf
  obtain ⟨extra, rfl⟩ : ∃ extra, fuel = k + 1 + extra := ⟨fuel - (k + 1), by omega⟩
  exact grow_loop_mono _ _ _ _ hstep extra

theorem doubling_loop_terminates_witness :
    ∃ k, k ≤ 63
      ∧ (∀ fuel, k < fuel →
          grow_loop fuel (small_acc [1, 2, 3]).memsize
              (murmur_buffer_length (small_acc [1, 2, 3]) + (List.replicate 70 (9 : Byte)).length)
            = some ((small_acc [1, 2, 3]).memsize * 2 ^ k))
      ∧ (small_acc [1, 2, 3]).memsize * 2 ^ k < SIZE_MOD
      ∧ murmur_buffer_length (small_acc [1, 2, 3]) + (List.replicate 70 (9 : Byte)).length
          ≤ (small_acc [1, 2, 3]).memsize * 2 ^ k
      ∧ (∀ j, j < k → (small_acc [1, 2, 3]).memsize * 2 ^ j
          < murmur_buffer_length (small_acc [1, 2, 3]) + (List.replicate 70 (9 : Byte)).length)
      ∧ ∃ space1, murmur_update (fun _ => 0) [⟨false, small_acc [1, 2, 3]⟩] 0
          (List.replicate 70 9) = .ok space1 0 :=
  doubling_loop_terminates (fun _ => 0) [⟨false, small_acc [1, 2, 3]⟩] 0
    ⟨false, small_acc [1, 2, 3]⟩ (List.replicate 70 9) rfl (by decide) (by decide)
    (by simp [murmur_buffer_length, small_acc])

end MurmurHash
